import Mathlib

/-!
Verification of the srt2csv repository's core text algorithms.

Strings are modelled as `List Char`.  The embedding covers:
  * `src/src/srt2csv/vocabulary.py`: `two_cases`, `parse_vocabular_text`,
    `modify_subtitles_with_vocabular_text_only_optimized`;
  * `src/subtitle_csv.py`: the inner `fallback_parse_srt` of `srt_to_csv`,
    and `find_closest_from_floor_value_index`.

Python regular-expression details are modelled for the concrete patterns the
code compiles: the rewriter's pattern is a literal string (the pattern text is
produced with `re.escape`) guarded by the look-around assertions
`(?<![\w-])` and `(?![\w-])`, and `re.sub` replaces the non-overlapping
occurrences scanning left to right, inserting the replacement literally.
The character class `\w` is modelled over its ASCII fragment
(letters, digits, underscore); all inputs appearing in the claims are ASCII.
-/

namespace SrtToCsv

/-- ASCII fragment of the regex class `\w`: letters, digits, underscore. -/
def isWordChar (c : Char) : Bool := c.isAlphanum || c = '_'

/-- The character class `[\w-]` used by both look-around assertions. -/
def isTokenChar (c : Char) : Bool := isWordChar c || c = '-'

/-- Characters `str.splitlines` treats as line boundaries (with `\r\n`
handled as a single boundary by `pySplitlines` below). -/
def isLineBreakChar (c : Char) : Bool :=
  c = '\n' || c = '\r' || c = '\x0b' || c = '\x0c' || c = '\x1c' ||
  c = '\x1d' || c = '\x1e' || c = '\x85' || c = '\u2028' || c = '\u2029'

/-- ASCII whitespace stripped by `str.strip()`. -/
def pyIsSpaceChar (c : Char) : Bool :=
  c = ' ' || c = '\t' || c = '\n' || c = '\r' || c = '\x0b' || c = '\x0c'

/-- `str.strip()`. -/
def pyStrip (l : List Char) : List Char :=
  ((l.dropWhile pyIsSpaceChar).reverse.dropWhile pyIsSpaceChar).reverse

/-- `str.isdigit()` (ASCII): non-empty and all digits. -/
def pyIsDigit (l : List Char) : Bool := !l.isEmpty && l.all Char.isDigit

/-- Boolean prefix test on character lists. -/
def isPfx : List Char → List Char → Bool
  | [], _ => true
  | _ :: _, [] => false
  | a :: as, b :: bs => a == b && isPfx as bs

/-- Python's `pat in s` substring test. -/
def isSubstr (pat : List Char) : List Char → Bool
  | [] => isPfx pat []
  | c :: rest => isPfx pat (c :: rest) || isSubstr pat rest

/-- Split at the first occurrence of `sep` (`str.split(sep, 1)` when the
separator occurs); `none` when `sep` does not occur. -/
def splitOnce (sep : List Char) : List Char → Option (List Char × List Char)
  | [] => none
  | c :: rest =>
    if isPfx sep (c :: rest) then some ([], (c :: rest).drop sep.length)
    else
      match splitOnce sep rest with
      | none => none
      | some (a, b) => some (c :: a, b)

/-- Fuelled worker for `pySplitSep`. -/
def pySplitSepFuel (sep : List Char) : Nat → List Char → List (List Char)
  | 0, l => [l]
  | fuel + 1, l =>
    match splitOnce sep l with
    | none => [l]
    | some (a, b) => a :: pySplitSepFuel sep fuel b

/-- `str.split(sep)` for a non-empty separator: each occurrence consumes at
least one character, so `l.length` steps of fuel always suffice. -/
def pySplitSep (sep l : List Char) : List (List Char) :=
  pySplitSepFuel sep l.length l

/-- `str.replace('\r\n', '\n')`, scanning left to right. -/
def replaceCrLf : List Char → List Char
  | [] => []
  | '\r' :: '\n' :: rest => '\n' :: replaceCrLf rest
  | c :: rest => c :: replaceCrLf rest

/-- Worker for `pySplitlines`: `acc` holds the current line reversed, and a
`\r` immediately followed by `\n` is one boundary.  The fuel argument makes
the recursion structural; every step consumes at least one character, so
fuel equal to the length of the text always suffices (the fuel-exhausted
equation is never reached from `pySplitlines`). -/
def pySplitlinesGo (acc : List Char) : Nat → List Char → List (List Char)
  | _, [] => [acc.reverse]
  | 0, l => [acc.reverse ++ l]
  | fuel + 1, c :: rest =>
    if c = '\r' && rest.head? == some '\n' then
      acc.reverse ::
        (if (rest.drop 1).isEmpty then []
         else pySplitlinesGo [] fuel (rest.drop 1))
    else if isLineBreakChar c then
      acc.reverse :: (if rest.isEmpty then [] else pySplitlinesGo [] fuel rest)
    else pySplitlinesGo (c :: acc) fuel rest

/-- `str.splitlines()`: no trailing empty line after a final boundary. -/
def pySplitlines (l : List Char) : List (List Char) :=
  if l.isEmpty then [] else pySplitlinesGo [] l.length l

/-- `'\n'.join(lines)`. -/
def joinNL : List (List Char) → List Char
  | [] => []
  | [l] => l
  | l :: rest => l ++ '\n' :: joinNL rest

/-- Fuelled worker for `numBreaks` (fuel as in `pySplitlinesGo`). -/
def numBreaksAux : Nat → List Char → Nat
  | _, [] => 0
  | 0, _ => 0
  | fuel + 1, c :: rest =>
    if c = '\r' && rest.head? == some '\n' then
      numBreaksAux fuel (rest.drop 1) + 1
    else if isLineBreakChar c then numBreaksAux fuel rest + 1
    else numBreaksAux fuel rest

/-- Number of line separators in a text, a `\r\n` pair counting once. -/
def numBreaks (l : List Char) : Nat :=
  numBreaksAux l.length l

/-- A substitution rule: (pattern `OLD`, replacement `NEW`). -/
abbrev Rule := List Char × List Char

/-- `two_cases(title)` from `vocabulary.py`: first character upper-cased and
lower-cased variants (ASCII case maps). -/
def two_cases : List Char → List Char × List Char
  | [] => ([], [])
  | c :: rest => (c.toUpper :: rest, c.toLower :: rest)

/-- The rule separator `<=>`. -/
def vocabSep : List Char := "<=>".data

/-- Rules contributed by one raw vocabulary line (`parse_vocabular_text`'s
loop body): strip, skip lines without `<=>`, split once, strip both sides,
and emit the two case variants of `NEW` mapped from the same `OLD`. -/
def lineRules (rawLine : List Char) : List Rule :=
  let line := pyStrip rawLine
  match splitOnce vocabSep line with
  | none => []
  | some (old, new) =>
    let uc := two_cases (pyStrip new)
    [(pyStrip old, uc.1), (pyStrip old, uc.2)]

/-- The rule list accumulated by `parse_vocabular_text` before sorting. -/
def rawRules (text : List Char) : List Rule :=
  (pySplitlines text).foldr (fun l acc => lineRules l ++ acc) []

/-- Stable insertion (descending pattern length) used to model
`list.sort(key=lambda x: len(x[0]), reverse=True)`: the element is placed
after every element of strictly greater pattern length and before the first
of smaller or equal length, so ties keep their original relative order. -/
def insertRule (x : Rule) : List Rule → List Rule
  | [] => [x]
  | y :: ys =>
    if x.1.length < y.1.length then y :: insertRule x ys else x :: y :: ys

/-- Stable sort by descending pattern length (extensionally the unique stable
descending sort, hence the same list Python's stable `sort` produces). -/
def sortRules : List Rule → List Rule
  | [] => []
  | x :: xs => insertRule x (sortRules xs)

/-- `parse_vocabular_text`. -/
def parse_vocabular_text (text : List Char) : List Rule :=
  sortRules (rawRules text)

/-- Spec-side helper: upper-case the first character. -/
def upperFirst : List Char → List Char
  | [] => []
  | c :: rest => c.toUpper :: rest

/-- Spec-side helper: lower-case the first character. -/
def lowerFirst : List Char → List Char
  | [] => []
  | c :: rest => c.toLower :: rest

/-- A look-around succeeds when there is no adjacent character or the
adjacent character is outside `[\w-]`. -/
def lookOk : Option Char → Bool
  | none => true
  | some c => !isTokenChar c

/-- The compiled pattern `(?<![\w-])(OLD)(?![\w-])` matches at the current
position: `OLD` is a literal prefix here, the previous character (if any) is
not in `[\w-]`, and neither is the character right after the matched span. -/
def matchesAt (old : List Char) (prev : Option Char) (l : List Char) : Bool :=
  isPfx old l && lookOk prev && lookOk ((l.drop old.length).head?)

/-- `pattern.sub(new, line)` for that compiled pattern: scan left to right,
replace each (non-overlapping) match, copy everything else.  `prev` is the
character just before the current position (`none` at the start).  A
zero-width pattern (empty `OLD`) matches where both look-arounds allow and
the scan then advances one character, as `re.sub` does. -/
def subAux (old new : List Char) : Option Char → Nat → List Char → List Char
  | prev, _, [] => if old.isEmpty && lookOk prev then new else []
  | _, 0, l => l
  | prev, fuel + 1, c :: rest =>
    if matchesAt old prev (c :: rest) then
      if old.isEmpty then new ++ c :: subAux old new (some c) fuel rest
      else new ++ subAux old new old.getLast? fuel ((c :: rest).drop old.length)
    else c :: subAux old new (some c) fuel rest

/-- `pattern.sub(new, line)`: the scan starts with no previous character and
fuel equal to the line length, which always suffices (each step consumes at
least one character; the fuel-exhausted equation of `subAux` is never
reached). -/
def pySub (old new line : List Char) : List Char :=
  subAux old new none line.length line

/-- One full pass of `modify_subtitles_with_vocabular_text_only_optimized`'s
inner loop over a content line: every compiled pattern applied in order. -/
def applyRules (rules : List Rule) (line : List Char) : List Char :=
  rules.foldl (fun acc r => pySub r.1 r.2 acc) line

/-- The timecode arrow token. -/
def arrowChars : List Char := "-->".data

/-- A structural line: stripped it is empty, all digits, or contains `-->`. -/
def isStructuralLine (line : List Char) : Bool :=
  let s := pyStrip line
  s.isEmpty || pyIsDigit s || isSubstr arrowChars s

/-- The loop body of the rewriter on one line: structural lines are copied,
content lines get every rule applied in order. -/
def rewriteLine (rules : List Rule) (line : List Char) : List Char :=
  if isStructuralLine line then line else applyRules rules line

/-- `modify_subtitles_with_vocabular_text_only_optimized(subtitles,
replacements)`: empty rule list returns the text unchanged; otherwise split
into lines, copy structural lines, rewrite content lines, and re-join with
`'\n'` (the logging of changed lines has no effect on the result). -/
def modify_subtitles_with_vocabular_text_only_optimized
    (subtitles : List Char) (replacements : List Rule) : List Char :=
  if replacements.isEmpty then subtitles
  else joinNL ((pySplitlines subtitles).map (rewriteLine replacements))

/-- Apply every maximal run of `[\w-]` characters through `g`, copying the
separating characters: the shape `subAux` takes on an all-token pattern. -/
def mapRuns (g : List Char → List Char) : List Char → List Char
  | [] => []
  | c :: rest =>
    if h : isTokenChar c = true then
      g ((c :: rest).takeWhile isTokenChar) ++
        mapRuns g ((c :: rest).dropWhile isTokenChar)
    else c :: mapRuns g rest
termination_by l => l.length
decreasing_by
  · rw [List.dropWhile_cons, if_pos h]
    exact Nat.lt_succ_of_le (List.Sublist.length_le (List.dropWhile_sublist _))
  · simp

/-- The run-level image of a rule list: rules tried in order on a whole run. -/
def runImage (rules : List Rule) (r : List Char) : List Char :=
  rules.foldl (fun r p => if r = p.1 then p.2 else r) r

/-- One parsed subtitle entry of the fallback parser.  Times are the
microseconds of `strptime(t, '%H:%M:%S,%f') - datetime(1900, 1, 1)`. -/
structure Subtitle where
  index : Nat
  startUs : Nat
  endUs : Nat
  content : List Char
deriving DecidableEq, Repr

/-- One or two digit field of `strptime` (`%H`, `%M`, `%S` match greedily). -/
def parseField : List Char → Option (Nat × List Char)
  | [] => none
  | [a] => if a.isDigit then some (a.toNat - 48, []) else none
  | a :: b :: rest =>
    if a.isDigit then
      if b.isDigit then some ((a.toNat - 48) * 10 + (b.toNat - 48), rest)
      else some (a.toNat - 48, b :: rest)
    else none

/-- `%f`: one to six digits, microseconds right-padded with zeros. -/
def parseFrac (l : List Char) : Option (Nat × List Char) :=
  let ds := (l.takeWhile Char.isDigit).take 6
  if ds.isEmpty then none
  else
    some (ds.foldl (fun a c => a * 10 + (c.toNat - 48)) 0 *
      10 ^ (6 - ds.length), l.drop ds.length)

/-- `datetime.strptime(s, '%H:%M:%S,%f') - datetime(1900, 1, 1)` in
microseconds; `none` models the `ValueError` raised on leftover input or an
out-of-range field. -/
def pyParseTimeUs (l : List Char) : Option Nat := do
  let (h, r1) ← parseField l
  if r1.head? ≠ some ':' then none else
  let (m, r2) ← parseField (r1.drop 1)
  if r2.head? ≠ some ':' then none else
  let (s, r3) ← parseField (r2.drop 1)
  if r3.head? ≠ some ',' then none else
  let (f, r4) ← parseFrac (r3.drop 1)
  if r4.isEmpty && h ≤ 23 && m ≤ 59 && s ≤ 59 then
    some (((h * 60 + m) * 60 + s) * 1000000 + f)
  else none

/-- The 12-character timestamp shape `\d{2}:\d{2}:\d{2},\d{3}` at the head
of the list (anything may follow). -/
def isStampAt : List Char → Bool
  | a :: b :: ':' :: c :: d :: ':' :: e :: f :: ',' :: g :: h :: i :: _ =>
    a.isDigit && b.isDigit && c.isDigit && d.isDigit && e.isDigit &&
    f.isDigit && g.isDigit && h.isDigit && i.isDigit
  | _ => false

/-- `re.match(r'\d{2}:\d{2}:\d{2},\d{3} --> \d{2}:\d{2}:\d{2},\d{3}', line)`:
a prefix match, trailing characters unconstrained. -/
def timecodeMatch (l : List Char) : Bool :=
  isStampAt l && (l.drop 12).take 5 == " --> ".data && isStampAt (l.drop 17)

/-- `int(line)` for an all-digit line. -/
def digitsToNat (l : List Char) : Nat :=
  l.foldl (fun a c => a * 10 + (c.toNat - 48)) 0

/-- `' '.join(texts)`. -/
def joinSpace : List (List Char) → List Char
  | [] => []
  | [t] => t
  | t :: rest => t ++ ' ' :: joinSpace rest

/-- The fallback parser's mutable block state. -/
structure FBState where
  number : Option Nat
  startT : Option (List Char)
  endT : Option (List Char)
  texts : List (List Char)
deriving Repr

/-- The reset state (`None, None, None, []`). -/
def initFB : FBState := ⟨none, none, none, []⟩

/-- Python truthiness of `subtitle_number` (an `int` or `None`). -/
def truthyNum : Option Nat → Bool
  | none => false
  | some n => n != 0

/-- Python truthiness of a time field (a `str` or `None`). -/
def truthyStr : Option (List Char) → Bool
  | none => false
  | some s => !s.isEmpty

/-- `subtitle_number and start_time and end_time and subtitle_text`. -/
def emitReady (st : FBState) : Bool :=
  truthyNum st.number && truthyStr st.startT && truthyStr st.endT &&
    !st.texts.isEmpty

/-- Build the emitted entry; `none` models the `ValueError` `strptime`
raises on a malformed stored time string. -/
def mkEntry (st : FBState) : Option Subtitle :=
  match st.number, st.startT, st.endT with
  | some n, some s, some e =>
    match pyParseTimeUs s, pyParseTimeUs e with
    | some su, some eu => some ⟨n, su, eu, joinSpace st.texts⟩
    | _, _ => none
  | _, _, _ => none

/-- The line loop of `fallback_parse_srt`, including the final-block flush.
`Except.error` models an uncaught exception (failed `strptime`, or the
impossible missing `times[1]`). -/
def fbAux (st : FBState) : List (List Char) → Except Unit (List Subtitle)
  | [] =>
    if emitReady st then
      match mkEntry st with
      | some e => .ok [e]
      | none => .error ()
    else .ok []
  | line :: rest =>
    let l := pyStrip line
    if pyIsDigit l then fbAux { st with number := some (digitsToNat l) } rest
    else if timecodeMatch l then
      match pySplitSep " --> ".data l with
      | t0 :: t1 :: _ => fbAux { st with startT := some t0, endT := some t1 } rest
      | _ => .error ()
    else if l.isEmpty then
      if emitReady st then
        match mkEntry st with
        | some e => (fbAux initFB rest).map (fun es => e :: es)
        | none => .error ()
      else fbAux initFB rest
    else fbAux { st with texts := st.texts ++ [l] } rest

/-- `fallback_parse_srt(srt_text)`: drop the BOM character, normalise
`\r\n`, split on `\n`, and run the line loop from the reset state. -/
def fallback_parse_srt (srtText : List Char) : Except Unit (List Subtitle) :=
  fbAux initFB ((replaceCrLf (srtText.filter (fun c => c ≠ '\ufeff'))).splitOn '\n')

/-- The loop of `find_closest_from_floor_value_index`: at each element set
`(max_value, index)` to it, and stop as soon as the element is strictly
below the target. -/
def fcLoop (value : Int) : List Int → Nat → Int × Nat → Int × Nat
  | [], _, acc => acc
  | a :: rest, i, _ => if a < value then (a, i) else fcLoop value rest (i + 1) (a, i)

/-- `find_closest_from_floor_value_index(value, array)`: the function reads
`array[0]` before any guard, so the empty list raises; the total embedding
returns `none` exactly there. -/
def find_closest_from_floor_value_index (value : Int) (array : List Int) :
    Option (Int × Nat) :=
  match array with
  | [] => none
  | a0 :: _ => some (fcLoop value array 0 (a0, 0))

/-- The first element strictly below the target, with its index. -/
def firstBelowAux (value : Int) : List Int → Nat → Option (Int × Nat)
  | [], _ => none
  | a :: rest, i =>
    if a < value then some (a, i) else firstBelowAux value rest (i + 1)

/-- Every rule has a non-empty pattern and replacement made of `[\w-]`
characters only. -/
abbrev wellFormedRules (R : List Rule) : Prop :=
  ∀ p ∈ R, p.1 ≠ [] ∧ p.2 ≠ [] ∧ (∀ c ∈ p.1, isTokenChar c = true) ∧
    (∀ c ∈ p.2, isTokenChar c = true)

/-- No rule's replacement equals any rule's pattern (its own included). -/
abbrev noReplacementIsPattern (R : List Rule) : Prop :=
  ∀ p ∈ R, ∀ q ∈ R, p.2 ≠ q.1


/-! ## Theorems -/

/-- The loop of `find_closest_from_floor_value_index` returns the first
element strictly below the target (with its index) when one exists, and
otherwise the last element visited. -/
theorem fcLoop_characterization :
    ∀ (l : List Int) (v : Int) (i : Nat) (acc : Int × Nat), l ≠ [] →
      fcLoop v l i acc =
        (firstBelowAux v l i).getD (l.getLastD 0, i + l.length - 1) := by
  intro l
  induction l with
  | nil => intro v i acc h; exact absurd rfl h
  | cons a rest ih =>
    intro v i acc _
    by_cases hav : a < v
    · simp [fcLoop, firstBelowAux, hav]
    · cases rest with
      | nil => simp [fcLoop, firstBelowAux, hav, List.getLastD]
      | cons b bs =>
        have hne : (b :: bs : List Int) ≠ [] := by simp
        calc fcLoop v (a :: b :: bs) i acc
            = fcLoop v (b :: bs) (i + 1) (a, i) := by
              simp [fcLoop, hav]
          _ = (firstBelowAux v (b :: bs) (i + 1)).getD
                ((b :: bs).getLastD 0, (i + 1) + (b :: bs).length - 1) :=
              ih v (i + 1) (a, i) hne
          _ = (firstBelowAux v (a :: b :: bs) i).getD
                ((a :: b :: bs).getLastD 0, i + (a :: b :: bs).length - 1) := by
              conv_rhs => rw [firstBelowAux]
              rw [if_neg hav]
              congr 1
              simp [List.getLastD]
              omega

/-- Claim C1 (amended): `find_closest_from_floor_value_index(v, A)` on a
non-empty list returns the first element strictly less than `v` together
with its index when such an element exists, and otherwise the last element
with index `A.length - 1`; it is not in general the largest element `≤ v`. -/
theorem claim_C1_amended :
    ∀ (v : Int) (arr : List Int), arr ≠ [] →
      find_closest_from_floor_value_index v arr =
        some ((firstBelowAux v arr 0).getD (arr.getLastD 0, arr.length - 1)) := by
  intro v arr h
  cases arr with
  | nil => exact absurd rfl h
  | cons a rest =>
    rw [find_closest_from_floor_value_index,
      fcLoop_characterization (a :: rest) v 0 (a, 0) (by simp)]
    norm_num

/-- Witness for the amended claim C1 at a concrete input. -/
theorem claim_C1_amended_witness :
    find_closest_from_floor_value_index 3 [5, 1] = some (1, 1) := by
  rw [claim_C1_amended 3 [5, 1] (by decide)]
  decide

/-- Counterexample to claim C1 as stated: on the ascending list `[1, 2, 3]`
and target `3` the function returns `(1, 0)`, although `3` itself is in the
list and `3 ≤ 3`, so the returned value `1` is not the largest element
`≤ 3`. -/
theorem claim_C1_counterexample :
    find_closest_from_floor_value_index 3 [1, 2, 3] = some (1, 0) ∧
    List.Pairwise (fun a b : Int => a ≤ b) [1, 2, 3] ∧
    (3 : Int) ∈ [(1 : Int), 2, 3] ∧ (3 : Int) ≤ 3 ∧ (1 : Int) ≠ 3 := by
  refine ⟨by decide, ?_, by decide, by decide, by decide⟩
  decide

/-- Claim C10: the function reads `array[0]` before any guard, so it is
defined exactly on non-empty lists; the total embedding returns `none` on
`[]` and `some` exactly when the list is non-empty. -/
theorem claim_C10 :
    (∀ v : Int, find_closest_from_floor_value_index v [] = none) ∧
    (∀ (v : Int) (arr : List Int),
      (find_closest_from_floor_value_index v arr).isSome = true ↔ arr ≠ []) := by
  constructor
  · intro v; rfl
  · intro v arr
    cases arr <;> simp [find_closest_from_floor_value_index]

/-- Witness for claim C10 at a concrete input. -/
theorem claim_C10_witness :
    (find_closest_from_floor_value_index 0 [7]).isSome = true :=
  (claim_C10.2 0 [7]).mpr (by decide)

/-- Claim C8: rewriting with an empty rule list returns the text unchanged,
and empty vocabulary content parses to an empty rule list (a missing file is
read as empty content by `check_vocabular`, which creates an empty file). -/
theorem claim_C8 :
    (∀ T : List Char,
      modify_subtitles_with_vocabular_text_only_optimized T [] = T) ∧
    parse_vocabular_text [] = [] := by
  exact ⟨fun T => rfl, rfl⟩

/-- Witness for claim C8 at a concrete input. -/
theorem claim_C8_witness :
    modify_subtitles_with_vocabular_text_only_optimized "a\nb".data [] =
      "a\nb".data :=
  claim_C8.1 "a\nb".data


/-- Inserting keeps the list a permutation of the element consed on. -/
theorem insertRule_perm (x : Rule) (l : List Rule) :
    (insertRule x l).Perm (x :: l) := by
  induction l with
  | nil => simp [insertRule]
  | cons y ys ih =>
    rw [insertRule]
    by_cases h : x.1.length < y.1.length
    · rw [if_pos h]
      exact (ih.cons y).trans (List.Perm.swap x y ys)
    · rw [if_neg h]

/-- Inserting keeps the descending-length order. -/
theorem insertRule_pairwise (x : Rule) (l : List Rule)
    (h : List.Pairwise (fun a b : Rule => b.1.length ≤ a.1.length) l) :
    List.Pairwise (fun a b : Rule => b.1.length ≤ a.1.length)
      (insertRule x l) := by
  induction l with
  | nil => simp [insertRule]
  | cons y ys ih =>
    rw [List.pairwise_cons] at h
    rw [insertRule]
    by_cases hlt : x.1.length < y.1.length
    · rw [if_pos hlt]
      refine List.Pairwise.cons ?_ (ih h.2)
      intro z hz
      rcases List.mem_cons.mp ((insertRule_perm x ys).mem_iff.mp hz) with
        rfl | hmem
      · exact Nat.le_of_lt hlt
      · exact h.1 z hmem
    · rw [if_neg hlt]
      refine List.Pairwise.cons ?_ (List.Pairwise.cons h.1 h.2)
      intro z hz
      rcases List.mem_cons.mp hz with rfl | hmem
      · exact Nat.le_of_not_lt hlt
      · exact Nat.le_trans (h.1 z hmem) (Nat.le_of_not_lt hlt)

/-- Inserting is stable: for every length the filtered sublist just gains
the new element in front when the length matches. -/
theorem insertRule_filter (x : Rule) (l : List Rule) (n : Nat) :
    (insertRule x l).filter (fun r => r.1.length == n) =
      if x.1.length = n then x :: l.filter (fun r => r.1.length == n)
      else l.filter (fun r => r.1.length == n) := by
  induction l with
  | nil =>
    by_cases hx : x.1.length = n <;> simp [insertRule, List.filter_cons, hx]
  | cons y ys ih =>
    rw [insertRule]
    by_cases hlt : x.1.length < y.1.length
    · rw [if_pos hlt]
      by_cases hy : y.1.length = n
      · have hx : ¬ x.1.length = n := by omega
        simp [List.filter_cons, hy, hx, ih]
      · simp [List.filter_cons, hy, ih]
    · rw [if_neg hlt]
      by_cases hx : x.1.length = n <;> simp [List.filter_cons, hx]

/-- The sort is a permutation. -/
theorem sortRules_perm (l : List Rule) : (sortRules l).Perm l := by
  induction l with
  | nil => simp [sortRules]
  | cons x xs ih =>
    exact (insertRule_perm x (sortRules xs)).trans (ih.cons x)

/-- The sort orders by descending pattern length. -/
theorem sortRules_pairwise (l : List Rule) :
    List.Pairwise (fun a b : Rule => b.1.length ≤ a.1.length) (sortRules l) := by
  induction l with
  | nil => simp [sortRules]
  | cons x xs ih => exact insertRule_pairwise x (sortRules xs) ih

/-- The sort is stable: rules of any fixed pattern length keep their
original relative order. -/
theorem sortRules_filter (l : List Rule) (n : Nat) :
    (sortRules l).filter (fun r => r.1.length == n) =
      l.filter (fun r => r.1.length == n) := by
  induction l with
  | nil => rfl
  | cons x xs ih =>
    rw [sortRules, insertRule_filter]
    by_cases hx : x.1.length = n <;> simp [List.filter_cons, hx, ih]

/-- `two_cases` returns exactly the upper-first and lower-first variants. -/
theorem two_cases_eq (t : List Char) :
    two_cases t = (upperFirst t, lowerFirst t) := by
  cases t <;> rfl

/-- Claim C5: `parse_vocabular_text` returns the per-line rules ordered by
descending pattern length with ties in original order (a permutation of the
unsorted accumulation, with every fixed-length fibre unchanged), and each
line holding the separator contributes exactly two rules with the same
stripped `OLD`: the stripped `NEW` with its first character upper-cased and
lower-cased; lines without the separator contribute nothing. -/
theorem claim_C5 :
    ∀ text : List Char,
      List.Pairwise (fun a b : Rule => b.1.length ≤ a.1.length)
        (parse_vocabular_text text) ∧
      (parse_vocabular_text text).Perm (rawRules text) ∧
      (∀ n : Nat,
        (parse_vocabular_text text).filter (fun r => r.1.length == n) =
          (rawRules text).filter (fun r => r.1.length == n)) ∧
      (∀ l : List Char,
        (splitOnce vocabSep (pyStrip l) = none → lineRules l = []) ∧
        (∀ o w : List Char, splitOnce vocabSep (pyStrip l) = some (o, w) →
          lineRules l =
            [(pyStrip o, upperFirst (pyStrip w)),
             (pyStrip o, lowerFirst (pyStrip w))])) := by
  intro text
  refine ⟨sortRules_pairwise _, sortRules_perm _,
    fun n => sortRules_filter _ n, fun l => ⟨?_, ?_⟩⟩
  · intro h
    simp [lineRules, h]
  · intro o w h
    simp [lineRules, h, two_cases_eq]

/-- Witness for claim C5 on a concrete vocabulary text. -/
theorem claim_C5_witness :
    (parse_vocabular_text "ab<=>cd\nLonger pat<=>x\n".data).Perm
        (rawRules "ab<=>cd\nLonger pat<=>x\n".data) ∧
      (parse_vocabular_text "ab<=>cd\nLonger pat<=>x\n".data).filter
          (fun r => r.1.length == 2) =
        (rawRules "ab<=>cd\nLonger pat<=>x\n".data).filter
          (fun r => r.1.length == 2) :=
  ⟨(claim_C5 "ab<=>cd\nLonger pat<=>x\n".data).2.1,
    (claim_C5 "ab<=>cd\nLonger pat<=>x\n".data).2.2.1 2⟩

/-- A text free of line boundaries splits into the single line holding it. -/
theorem pySplitlinesGo_break_free :
    ∀ (l : List Char), (∀ c ∈ l, isLineBreakChar c = false) →
      ∀ (acc : List Char) (fuel : Nat), l.length ≤ fuel →
        pySplitlinesGo acc fuel l = [acc.reverse ++ l] := by
  intro l
  induction l with
  | nil =>
    intro _ acc fuel _
    cases fuel <;> simp [pySplitlinesGo]
  | cons c rest ih =>
    intro h acc fuel hfuel
    cases fuel with
    | zero => simp at hfuel
    | succ f =>
      have hc : isLineBreakChar c = false := h c (by simp)
      have hcr : c ≠ '\r' := by
        intro e; subst e; simp [isLineBreakChar] at hc
      rw [pySplitlinesGo]
      simp only [hcr, decide_False, Bool.false_and, hc, Bool.false_eq_true,
        if_false]
      rw [ih (fun x hx => h x (by simp [hx])) (c :: acc) f (by simp at hfuel; omega)]
      simp

/-- Claim C6: a line that strips to empty, to all digits, or that contains
the arrow token is emitted unchanged by the rewriter, whatever the rules. -/
theorem claim_C6 :
    ∀ (R : List Rule) (line : List Char),
      (∀ c ∈ line, isLineBreakChar c = false) →
      isStructuralLine line = true →
      modify_subtitles_with_vocabular_text_only_optimized line R = line := by
  intro R line hfree hstruct
  by_cases hR : R.isEmpty
  · simp [modify_subtitles_with_vocabular_text_only_optimized, hR]
  · rw [modify_subtitles_with_vocabular_text_only_optimized, if_neg hR]
    cases line with
    | nil => rfl
    | cons c rest =>
      rw [pySplitlines, if_neg (by simp)]
      rw [pySplitlinesGo_break_free _ hfree [] _ (Nat.le_refl _)]
      simp [rewriteLine, hstruct, joinNL]

/-- Witness for claim C6: a digits-only line survives a rule that would
otherwise rewrite its characters. -/
theorem claim_C6_witness :
    modify_subtitles_with_vocabular_text_only_optimized "12".data
      [("1".data, "2".data)] = "12".data :=
  claim_C6 [("1".data, "2".data)] "12".data (by decide) (by decide)


/-- An entry the flush emits under `emitReady` carries the stored subtitle
number, which Python truthiness forced to be non-zero. -/
theorem mkEntry_index (st : FBState) (e : Subtitle)
    (hr : emitReady st = true) (hm : mkEntry st = some e) : e.index ≠ 0 := by
  rcases st with ⟨num, sT, eT, txts⟩
  cases num with
  | none => simp [emitReady, truthyNum] at hr
  | some n =>
    cases sT with
    | none => simp [emitReady, truthyStr] at hr
    | some sv =>
      cases eT with
      | none => simp [emitReady, truthyStr] at hr
      | some ev =>
        have hn : n ≠ 0 := by
          simp [emitReady, truthyNum] at hr
          tauto
        cases hsu : pyParseTimeUs sv with
        | none => simp [mkEntry, hsu] at hm
        | some su =>
          cases heu : pyParseTimeUs ev with
          | none => simp [mkEntry, hsu, heu] at hm
          | some eu =>
            simp [mkEntry, hsu, heu] at hm
            rw [← hm]
            exact hn

/-- Every entry the line loop returns has a non-zero index. -/
theorem fbAux_index_ne_zero :
    ∀ (lines : List (List Char)) (st : FBState) (entries : List Subtitle),
      fbAux st lines = .ok entries → ∀ e ∈ entries, e.index ≠ 0 := by
  intro lines
  induction lines with
  | nil =>
    intro st entries h e he
    rw [fbAux] at h
    by_cases hr : emitReady st
    · rw [if_pos hr] at h
      cases hm : mkEntry st with
      | none => rw [hm] at h; exact absurd h (by simp)
      | some e0 =>
        rw [hm] at h
        have : [e0] = entries := by
          simpa using h
        rw [← this] at he
        have he0 : e = e0 := by simpa using he
        rw [he0]
        exact mkEntry_index st e0 hr hm
    · rw [if_neg hr] at h
      have : ([] : List Subtitle) = entries := by simpa using h
      rw [← this] at he
      simp at he
  | cons line ls ih =>
    intro st entries h e he
    rw [fbAux] at h
    by_cases hd : pyIsDigit (pyStrip line)
    · rw [if_pos hd] at h
      exact ih _ _ h e he
    · rw [if_neg hd] at h
      by_cases ht : timecodeMatch (pyStrip line)
      · rw [if_pos ht] at h
        cases hsp : pySplitSep " --> ".data (pyStrip line) with
        | nil => rw [hsp] at h; exact absurd h (by simp)
        | cons t0 ts =>
          cases ts with
          | nil => rw [hsp] at h; exact absurd h (by simp)
          | cons t1 ts' =>
            rw [hsp] at h
            exact ih _ _ h e he
      · rw [if_neg ht] at h
        by_cases hempty : (pyStrip line).isEmpty
        · rw [if_pos hempty] at h
          by_cases hr : emitReady st
          · rw [if_pos hr] at h
            cases hm : mkEntry st with
            | none => rw [hm] at h; exact absurd h (by simp)
            | some e0 =>
              rw [hm] at h
              cases hrec : fbAux initFB ls with
              | error u => rw [hrec] at h; simp [Except.map] at h
              | ok es =>
                rw [hrec] at h
                have : e0 :: es = entries := by simpa [Except.map] using h
                rw [← this] at he
                rcases List.mem_cons.mp he with rfl | hmem
                · exact mkEntry_index st e hr hm
                · exact ih initFB es hrec e hmem
          · rw [if_neg hr] at h
            exact ih _ _ h e he
        · rw [if_neg hempty] at h
          exact ih _ _ h e he

/-- Claim C9: the fallback parser never emits an entry whose index is `0`
(the emission guard tests the fields by Python truthiness), and a concrete
input whose first block is numbered `0` loses that block while the next
well-formed block is still emitted. -/
theorem claim_C9 :
    (∀ (text : List Char) (entries : List Subtitle),
      fallback_parse_srt text = .ok entries → ∀ e ∈ entries, e.index ≠ 0) ∧
    fallback_parse_srt
        ("0\n00:00:01,000 --> 00:00:02,500\nZero\n\n" ++
          "1\n00:00:03,000 --> 00:00:04,000\nOne\n").data =
      .ok [⟨1, 3000000, 4000000, "One".data⟩] := by
  constructor
  · intro text entries h e he
    exact fbAux_index_ne_zero _ _ _ h e he
  · rfl

/-- Witness for claim C9: the general part applied to the concrete parse. -/
theorem claim_C9_witness :
    (⟨1, 3000000, 4000000, "One".data⟩ : Subtitle).index ≠ 0 :=
  claim_C9.1
    ("0\n00:00:01,000 --> 00:00:02,500\nZero\n\n" ++
      "1\n00:00:03,000 --> 00:00:04,000\nOne\n").data
    [⟨1, 3000000, 4000000, "One".data⟩] claim_C9.2
    ⟨1, 3000000, 4000000, "One".data⟩ (by simp)

/-- With no start time stored the emission guard is false. -/
theorem emitReady_of_startT_none (st : FBState) (h : st.startT = none) :
    emitReady st = false := by
  simp [emitReady, h, truthyStr]


/-- `isPfx` recognises exactly the prefixes. -/
theorem isPfx_iff : ∀ (p l : List Char), isPfx p l = true ↔ ∃ t, l = p ++ t := by
  intro p
  induction p with
  | nil =>
    intro l
    simp [isPfx]
  | cons a as ih =>
    intro l
    cases l with
    | nil =>
      simp [isPfx]
    | cons b bs =>
      rw [isPfx]
      constructor
      · intro h
        rcases Bool.and_eq_true_iff.mp h with ⟨h1, h2⟩
        have hab : a = b := by simpa using h1
        rcases (ih bs).mp h2 with ⟨t, rfl⟩
        exact ⟨t, by rw [hab]; rfl⟩
      · rintro ⟨t, ht⟩
        have hb : b = a := by
          have := congrArg List.head? ht
          simpa using this
        have hbs : bs = as ++ t := by
          have := congrArg List.tail ht
          simpa using this
        subst hb
        refine Bool.and_eq_true_iff.mpr ⟨by simp, (ih bs).mpr ⟨t, hbs⟩⟩

/-- A prefix test on its own append succeeds. -/
theorem isPfx_append_self (p t : List Char) : isPfx p (p ++ t) = true :=
  (isPfx_iff p (p ++ t)).mpr ⟨t, rfl⟩

/-- `takeWhile` swallows a fully satisfying prefix. -/
theorem takeWhile_all_append (p : Char → Bool) :
    ∀ (xs ys : List Char), (∀ x ∈ xs, p x = true) →
      (xs ++ ys).takeWhile p = xs ++ ys.takeWhile p := by
  intro xs
  induction xs with
  | nil => intro ys _; rfl
  | cons a as ih =>
    intro ys h
    rw [List.cons_append, List.takeWhile_cons, if_pos (h a (by simp)),
      ih ys (fun x hx => h x (by simp [hx]))]
    rfl

/-- `dropWhile` drops a fully satisfying prefix. -/
theorem dropWhile_all_append (p : Char → Bool) :
    ∀ (xs ys : List Char), (∀ x ∈ xs, p x = true) →
      (xs ++ ys).dropWhile p = ys.dropWhile p := by
  intro xs
  induction xs with
  | nil => intro ys _; rfl
  | cons a as ih =>
    intro ys h
    rw [List.cons_append, List.dropWhile_cons, if_pos (h a (by simp))]
    exact ih ys (fun x hx => h x (by simp [hx]))

/-- `takeWhile` of a list whose head fails the test is empty. -/
theorem takeWhile_head_false (p : Char → Bool) (l : List Char)
    (h : ∀ x, l.head? = some x → p x = false) : l.takeWhile p = [] := by
  cases l with
  | nil => rfl
  | cons a as =>
    rw [List.takeWhile_cons, if_neg]
    rw [h a rfl]
    simp

/-- `dropWhile` of a list whose head fails the test keeps it whole. -/
theorem dropWhile_head_false (p : Char → Bool) (l : List Char)
    (h : ∀ x, l.head? = some x → p x = false) : l.dropWhile p = l := by
  cases l with
  | nil => rfl
  | cons a as =>
    rw [List.dropWhile_cons, if_neg]
    rw [h a rfl]
    simp

/-- The head of a `dropWhile` result fails the test. -/
theorem dropWhile_head?_false (p : Char → Bool) :
    ∀ (l : List Char) (x : Char), (l.dropWhile p).head? = some x → p x = false := by
  intro l
  induction l with
  | nil => intro x h; simp at h
  | cons a as ih =>
    intro x h
    rw [List.dropWhile_cons] at h
    by_cases ha : p a
    · rw [if_pos ha] at h
      exact ih x h
    · rw [if_neg ha] at h
      have : a = x := by simpa using h
      rw [← this]
      exact Bool.eq_false_iff.mpr ha

/-- `takeWhile` keeps the whole list when every element passes. -/
theorem takeWhile_all (p : Char → Bool) (l : List Char)
    (h : ∀ x ∈ l, p x = true) : l.takeWhile p = l := by
  have := takeWhile_all_append p l [] h
  simpa using this

/-- `dropWhile` erases the whole list when every element passes. -/
theorem dropWhile_all (p : Char → Bool) (l : List Char)
    (h : ∀ x ∈ l, p x = true) : l.dropWhile p = [] := by
  have := dropWhile_all_append p l [] h
  simpa using this

/-- `mapRuns` on a non-token head copies it. -/
theorem mapRuns_cons_not (g : List Char → List Char) (c : Char)
    (rest : List Char) (h : isTokenChar c = false) :
    mapRuns g (c :: rest) = c :: mapRuns g rest := by
  rw [mapRuns]
  simp [h]

/-- `mapRuns` on a token head maps the maximal run it opens. -/
theorem mapRuns_cons_tok (g : List Char → List Char) (c : Char)
    (rest : List Char) (h : isTokenChar c = true) :
    mapRuns g (c :: rest) =
      g ((c :: rest).takeWhile isTokenChar) ++
        mapRuns g ((c :: rest).dropWhile isTokenChar) := by
  rw [mapRuns]
  simp [h]

/-- `mapRuns` over a whole run followed by a separator (or nothing). -/
theorem mapRuns_run_append (g : List Char → List Char) (s t : List Char)
    (hs : s ≠ []) (hstok : ∀ c ∈ s, isTokenChar c = true)
    (ht : ∀ x, t.head? = some x → isTokenChar x = false) :
    mapRuns g (s ++ t) = g s ++ mapRuns g t := by
  cases s with
  | nil => exact absurd rfl hs
  | cons c s' =>
    rw [List.cons_append, mapRuns_cons_tok g c (s' ++ t) (hstok c (by simp))]
    rw [show c :: (s' ++ t) = (c :: s') ++ t from rfl]
    rw [takeWhile_all_append _ _ _ hstok, takeWhile_head_false _ _ ht,
      dropWhile_all_append _ _ _ hstok, dropWhile_head_false _ _ ht,
      List.append_nil]

/-- The head of a `mapRuns` image of a separator-headed list stays a
separator. -/
theorem mapRuns_head_sep (g : List Char → List Char) (d : List Char)
    (hd : ∀ x, d.head? = some x → isTokenChar x = false) :
    ∀ x, (mapRuns g d).head? = some x → isTokenChar x = false := by
  intro x hx
  cases d with
  | nil => simp [mapRuns] at hx
  | cons e d' =>
    have he : isTokenChar e = false := hd e rfl
    rw [mapRuns_cons_not g e d' he] at hx
    have : e = x := by simpa using hx
    rw [← this]
    exact he

/-- The scan of `subAux` on an all-token non-empty pattern is exactly the
run map replacing each maximal `[\w-]` run equal to the pattern: part one
holds when the previous character allows a match to start, part two when it
does not (the leading partial run is then copied untouched). -/
theorem subAux_runs (old new : List Char) (hold : old ≠ [])
    (htok : ∀ c ∈ old, isTokenChar c = true) :
    ∀ (n : Nat) (l : List Char), l.length ≤ n → ∀ prev : Option Char,
      (lookOk prev = true →
        subAux old new prev n l =
          mapRuns (fun r => if r = old then new else r) l) ∧
      (lookOk prev = false →
        subAux old new prev n l =
          l.takeWhile isTokenChar ++
            mapRuns (fun r => if r = old then new else r)
              (l.dropWhile isTokenChar)) := by
  have holdEmpty : old.isEmpty = false := by
    cases old with
    | nil => exact absurd rfl hold
    | cons a as => rfl
  intro n
  induction n with
  | zero =>
    intro l hl prev
    have : l = [] := List.length_eq_zero.mp (Nat.le_zero.mp hl)
    subst this
    constructor <;> intro hprev <;> simp [subAux, holdEmpty, mapRuns]
  | succ n ih =>
    intro l hl prev
    cases l with
    | nil =>
      constructor <;> intro hprev <;> simp [subAux, holdEmpty, mapRuns]
    | cons c rest =>
      have hrest : rest.length ≤ n := by
        simp at hl
        omega
      constructor
      · -- lookOk prev = true
        intro hprev
        by_cases hc : isTokenChar c = true
        · by_cases hm : matchesAt old prev (c :: rest) = true
          · -- a match starts here, so the run is exactly `old`
            have hpfx : isPfx old (c :: rest) = true := by
              have := hm
              rw [matchesAt] at this
              exact (Bool.and_eq_true_iff.mp
                (Bool.and_eq_true_iff.mp this).1).1
            rcases (isPfx_iff old (c :: rest)).mp hpfx with ⟨t, hct⟩
            have hdrop : (c :: rest).drop old.length = t := by
              rw [hct, List.drop_left]
            have hlook : lookOk (((c :: rest).drop old.length).head?) = true := by
              rw [matchesAt] at hm
              exact (Bool.and_eq_true_iff.mp hm).2
            have htHead : ∀ x, t.head? = some x → isTokenChar x = false := by
              intro x hx
              rw [hdrop, hx] at hlook
              simpa [lookOk] using hlook
            have hTake : (c :: rest).takeWhile isTokenChar = old := by
              rw [hct, takeWhile_all_append _ _ _ htok,
                takeWhile_head_false _ _ htHead, List.append_nil]
            have hDrop : (c :: rest).dropWhile isTokenChar = t := by
              rw [hct, dropWhile_all_append _ _ _ htok,
                dropWhile_head_false _ _ htHead]
            -- the stored previous character after the match is old's last
            have hlast : ∃ x, old.getLast? = some x ∧ isTokenChar x = true := by
              refine ⟨old.getLast hold,
                List.getLast?_eq_getLast_of_ne_nil hold, ?_⟩
              exact htok _ (List.getLast_mem hold)
            rcases hlast with ⟨x, hx, hxt⟩
            have hlookLast : lookOk old.getLast? = false := by
              rw [hx]
              simp [lookOk, hxt]
            have htlen : t.length ≤ n := by
              have hlen := congrArg List.length hct
              simp at hlen
              have : 0 < old.length := List.length_pos.mpr hold
              omega
            rw [subAux, if_pos hm, if_neg (by rw [holdEmpty]; simp), hdrop]
            rw [((ih t htlen old.getLast?).2) hlookLast]
            rw [takeWhile_head_false _ _ htHead, dropWhile_head_false _ _ htHead,
              List.nil_append]
            rw [mapRuns_cons_tok _ _ _ hc, hTake, hDrop, if_pos rfl]
          · -- no match: the run here differs from `old`
            have hrun : (c :: rest).takeWhile isTokenChar ≠ old := by
              intro hEq
              have hsplit := List.takeWhile_append_dropWhile
                (p := isTokenChar) (l := c :: rest)
              have hpfx : isPfx old (c :: rest) = true := by
                rw [← hsplit, hEq]
                exact isPfx_append_self _ _
              have hdropHead : ∀ x,
                  ((c :: rest).dropWhile isTokenChar).head? = some x →
                    isTokenChar x = false :=
                fun x hx => dropWhile_head?_false _ _ x hx
              have hdrop2 : (c :: rest).drop old.length =
                  (c :: rest).dropWhile isTokenChar := by
                conv_lhs => rw [← hsplit, hEq]
                rw [List.drop_left]
              have : matchesAt old prev (c :: rest) = true := by
                rw [matchesAt, hpfx, hprev, hdrop2]
                cases hD : (c :: rest).dropWhile isTokenChar with
                | nil => simp [lookOk]
                | cons y ys =>
                  have : isTokenChar y = false := by
                    apply hdropHead
                    rw [hD]
                    rfl
                  simp [lookOk, this]
              exact hm this
            rw [subAux, if_neg hm]
            have hcLook : lookOk (some c) = false := by
              simp [lookOk, hc]
            rw [((ih rest hrest (some c)).2) hcLook]
            rw [mapRuns_cons_tok _ _ _ hc, if_neg hrun]
            rw [List.takeWhile_cons, if_pos hc, List.dropWhile_cons, if_pos hc]
            rfl
        · -- separator character: no match can start on it
          have hc' : isTokenChar c = false := Bool.eq_false_iff.mpr hc
          have hnm : matchesAt old prev (c :: rest) = false := by
            cases old with
            | nil => exact absurd rfl hold
            | cons o os =>
              have ho : isTokenChar o = true := htok o (by simp)
              have : isPfx (o :: os) (c :: rest) = false := by
                rw [isPfx]
                have : (o == c) = false := by
                  have : o ≠ c := by
                    intro h
                    rw [h] at ho
                    rw [ho] at hc'
                    simp at hc'
                  simpa using this
                rw [this]
                simp
              rw [matchesAt, this]
              simp
          rw [subAux, if_neg (by rw [hnm]; simp)]
          have hcLook : lookOk (some c) = true := by
            simp [lookOk, hc']
          rw [((ih rest hrest (some c)).1) hcLook]
          rw [mapRuns_cons_not _ _ _ hc']
      · -- lookOk prev = false: no match can start at this position
        intro hprev
        have hnm : matchesAt old prev (c :: rest) = false := by
          rw [matchesAt, hprev]
          simp
        rw [subAux, if_neg (by rw [hnm]; simp)]
        by_cases hc : isTokenChar c = true
        · have hcLook : lookOk (some c) = false := by
            simp [lookOk, hc]
          rw [((ih rest hrest (some c)).2) hcLook]
          rw [List.takeWhile_cons, if_pos hc, List.dropWhile_cons, if_pos hc]
          rfl
        · have hc' : isTokenChar c = false := Bool.eq_false_iff.mpr hc
          have hcLook : lookOk (some c) = true := by
            simp [lookOk, hc']
          rw [((ih rest hrest (some c)).1) hcLook]
          rw [List.takeWhile_cons, if_neg (by rw [hc']; simp),
            List.dropWhile_cons, if_neg (by rw [hc']; simp)]
          rw [mapRuns_cons_not _ _ _ hc']
          rfl

/-- `re.sub` with an all-token pattern maps each maximal token run. -/
theorem pySub_eq_mapRuns (old new : List Char) (hold : old ≠ [])
    (htok : ∀ c ∈ old, isTokenChar c = true) (l : List Char) :
    pySub old new l =
      mapRuns (fun r => if r = old then new else r) l :=
  ((subAux_runs old new hold htok l.length l (Nat.le_refl _) none).1) rfl


/-- `mapRuns` of the empty string. -/
theorem mapRuns_nil (g : List Char → List Char) : mapRuns g [] = [] := by
  rw [mapRuns]

/-- `mapRuns` only looks at the maximal token runs, which are non-empty and
all-token. -/
theorem mapRuns_congr (g g' : List Char → List Char)
    (h : ∀ r, r ≠ [] → (∀ c ∈ r, isTokenChar c = true) → g r = g' r) :
    ∀ (n : Nat) (l : List Char), l.length ≤ n → mapRuns g l = mapRuns g' l := by
  intro n
  induction n with
  | zero =>
    intro l hl
    have : l = [] := List.length_eq_zero.mp (Nat.le_zero.mp hl)
    subst this
    rw [mapRuns_nil, mapRuns_nil]
  | succ n ih =>
    intro l hl
    cases l with
    | nil => rw [mapRuns_nil, mapRuns_nil]
    | cons c rest =>
      have hrest : rest.length ≤ n := by simp at hl; omega
      by_cases hc : isTokenChar c = true
      · rw [mapRuns_cons_tok g c rest hc, mapRuns_cons_tok g' c rest hc]
        have hrun_ne : (c :: rest).takeWhile isTokenChar ≠ [] := by
          rw [List.takeWhile_cons, if_pos hc]
          simp
        have hrun_tok :
            ∀ x ∈ (c :: rest).takeWhile isTokenChar, isTokenChar x = true :=
          fun x hx => List.mem_takeWhile_imp hx
        rw [h _ hrun_ne hrun_tok]
        congr 1
        apply ih
        rw [List.dropWhile_cons, if_pos hc]
        exact Nat.le_trans
          (List.Sublist.length_le (List.dropWhile_sublist isTokenChar)) hrest
      · have hc' : isTokenChar c = false := Bool.eq_false_iff.mpr hc
        rw [mapRuns_cons_not g _ _ hc', mapRuns_cons_not g' _ _ hc',
          ih rest hrest]

/-- The identity on runs is the identity. -/
theorem mapRuns_id :
    ∀ (n : Nat) (l : List Char), l.length ≤ n →
      mapRuns (fun r => r) l = l := by
  intro n
  induction n with
  | zero =>
    intro l hl
    have : l = [] := List.length_eq_zero.mp (Nat.le_zero.mp hl)
    subst this
    rw [mapRuns_nil]
  | succ n ih =>
    intro l hl
    cases l with
    | nil => rw [mapRuns_nil]
    | cons c rest =>
      have hrest : rest.length ≤ n := by simp at hl; omega
      by_cases hc : isTokenChar c = true
      · rw [mapRuns_cons_tok _ c rest hc]
        rw [ih ((c :: rest).dropWhile isTokenChar) ?hlen]
        · exact List.takeWhile_append_dropWhile isTokenChar (c :: rest)
        · rw [List.dropWhile_cons, if_pos hc]
          exact Nat.le_trans
            (List.Sublist.length_le (List.dropWhile_sublist isTokenChar)) hrest
      · have hc' : isTokenChar c = false := Bool.eq_false_iff.mpr hc
        rw [mapRuns_cons_not _ _ _ hc', ih rest hrest]

/-- Composing two run maps is the run map of the composition, as long as the
first one sends non-empty all-token runs to non-empty all-token strings. -/
theorem mapRuns_comp (g1 g2 : List Char → List Char)
    (hg1 : ∀ r, r ≠ [] → (∀ c ∈ r, isTokenChar c = true) →
      g1 r ≠ [] ∧ ∀ c ∈ g1 r, isTokenChar c = true) :
    ∀ (n : Nat) (l : List Char), l.length ≤ n →
      mapRuns g2 (mapRuns g1 l) = mapRuns (fun r => g2 (g1 r)) l := by
  intro n
  induction n with
  | zero =>
    intro l hl
    have : l = [] := List.length_eq_zero.mp (Nat.le_zero.mp hl)
    subst this
    rw [mapRuns_nil, mapRuns_nil, mapRuns_nil]
  | succ n ih =>
    intro l hl
    cases l with
    | nil => rw [mapRuns_nil, mapRuns_nil, mapRuns_nil]
    | cons c rest =>
      have hrest : rest.length ≤ n := by simp at hl; omega
      by_cases hc : isTokenChar c = true
      · have hrun_ne : (c :: rest).takeWhile isTokenChar ≠ [] := by
          rw [List.takeWhile_cons, if_pos hc]
          simp
        have hrun_tok :
            ∀ x ∈ (c :: rest).takeWhile isTokenChar, isTokenChar x = true :=
          fun x hx => List.mem_takeWhile_imp hx
        have hg := hg1 _ hrun_ne hrun_tok
        have hd_head : ∀ x,
            ((c :: rest).dropWhile isTokenChar).head? = some x →
              isTokenChar x = false :=
          fun x hx => dropWhile_head?_false _ _ x hx
        have hdlen : ((c :: rest).dropWhile isTokenChar).length ≤ n := by
          rw [List.dropWhile_cons, if_pos hc]
          exact Nat.le_trans
            (List.Sublist.length_le (List.dropWhile_sublist isTokenChar)) hrest
        rw [mapRuns_cons_tok g1 c rest hc,
          mapRuns_run_append g2 _ _ hg.1 hg.2
            (mapRuns_head_sep g1 _ hd_head),
          ih _ hdlen,
          mapRuns_cons_tok (fun r => g2 (g1 r)) c rest hc]
      · have hc' : isTokenChar c = false := Bool.eq_false_iff.mpr hc
        rw [mapRuns_cons_not g1 _ _ hc', mapRuns_cons_not g2 _ _ hc',
          mapRuns_cons_not (fun r => g2 (g1 r)) _ _ hc', ih rest hrest]

/-- On a non-empty all-token string, `mapRuns` is a single application. -/
theorem mapRuns_all_tok (g : List Char → List Char) (l : List Char)
    (hne : l ≠ []) (htok : ∀ c ∈ l, isTokenChar c = true) :
    mapRuns g l = g l := by
  have := mapRuns_run_append g l [] hne htok (by intro x hx; simp at hx)
  simpa [mapRuns_nil] using this

/-- Folding the rules over a run lands on the run itself or on some rule's
replacement. -/
theorem runImage_dichotomy :
    ∀ (R : List Rule) (r : List Char),
      runImage R r = r ∨ ∃ p ∈ R, runImage R r = p.2 := by
  intro R
  induction R with
  | nil => intro r; left; rfl
  | cons p RS ih =>
    intro r
    have hstep : runImage (p :: RS) r =
        runImage RS (if r = p.1 then p.2 else r) := rfl
    by_cases hr : r = p.1
    · rw [hstep, if_pos hr]
      rcases ih p.2 with h | ⟨q, hq, h⟩
      · exact Or.inr ⟨p, by simp, h⟩
      · exact Or.inr ⟨q, by simp [hq], h⟩
    · rw [hstep, if_neg hr]
      rcases ih r with h | ⟨q, hq, h⟩
      · exact Or.inl h
      · exact Or.inr ⟨q, by simp [hq], h⟩

/-- A run equal to no rule's pattern is left alone. -/
theorem runImage_fixed :
    ∀ (R : List Rule) (r : List Char), (∀ q ∈ R, r ≠ q.1) →
      runImage R r = r := by
  intro R
  induction R with
  | nil => intro r _; rfl
  | cons p RS ih =>
    intro r h
    have hstep : runImage (p :: RS) r =
        runImage RS (if r = p.1 then p.2 else r) := rfl
    rw [hstep, if_neg (h p (by simp))]
    exact ih r (fun q hq => h q (by simp [hq]))

/-- When no rule's replacement is any rule's pattern, the run-level rule
fold is idempotent. -/
theorem runImage_idem (R : List Rule)
    (h2 : ∀ p ∈ R, ∀ q ∈ R, p.2 ≠ q.1) (r : List Char) :
    runImage R (runImage R r) = runImage R r := by
  rcases runImage_dichotomy R r with h | ⟨p, hp, h⟩
  · rw [h]
    exact h
  · rw [h]
    exact runImage_fixed R p.2 (fun q hq => h2 p hp q hq)

/-- Well-formed rules keep runs non-empty and all-token. -/
theorem runImage_valid (R : List Rule)
    (h1 : ∀ p ∈ R, p.1 ≠ [] ∧ p.2 ≠ [] ∧ (∀ c ∈ p.1, isTokenChar c = true) ∧
      (∀ c ∈ p.2, isTokenChar c = true))
    (r : List Char) (hr : r ≠ []) (hrt : ∀ c ∈ r, isTokenChar c = true) :
    runImage R r ≠ [] ∧ ∀ c ∈ runImage R r, isTokenChar c = true := by
  rcases runImage_dichotomy R r with h | ⟨p, hp, h⟩ <;> rw [h]
  · exact ⟨hr, hrt⟩
  · exact ⟨(h1 p hp).2.1, (h1 p hp).2.2.2⟩

/-- One full pass of the rewriter over a content line is the run map of the
sequential rule fold, for well-formed all-token rules. -/
theorem applyRules_eq_mapRuns :
    ∀ (R : List Rule),
      (∀ p ∈ R, p.1 ≠ [] ∧ p.2 ≠ [] ∧ (∀ c ∈ p.1, isTokenChar c = true) ∧
        (∀ c ∈ p.2, isTokenChar c = true)) →
      ∀ line : List Char, applyRules R line = mapRuns (runImage R) line := by
  intro R
  induction R with
  | nil =>
    intro _ line
    have h2 : runImage ([] : List Rule) = fun r => r := by
      funext r
      rfl
    show line = mapRuns (runImage ([] : List Rule)) line
    rw [h2, mapRuns_id line.length line (Nat.le_refl _)]
  | cons p RS ih =>
    intro hR line
    have hp := hR p (by simp)
    have hRS : ∀ q ∈ RS, q.1 ≠ [] ∧ q.2 ≠ [] ∧
        (∀ c ∈ q.1, isTokenChar c = true) ∧
        (∀ c ∈ q.2, isTokenChar c = true) :=
      fun q hq => hR q (by simp [hq])
    have step1 : applyRules (p :: RS) line =
        applyRules RS (pySub p.1 p.2 line) := rfl
    rw [step1, pySub_eq_mapRuns p.1 p.2 hp.1 hp.2.2.1, ih hRS]
    have hg : ∀ r, r ≠ [] → (∀ c ∈ r, isTokenChar c = true) →
        (if r = p.1 then p.2 else r) ≠ [] ∧
          ∀ c ∈ (if r = p.1 then p.2 else r), isTokenChar c = true := by
      intro r hr hrt
      by_cases hrp : r = p.1
      · rw [if_pos hrp]
        exact ⟨hp.2.1, hp.2.2.2⟩
      · rw [if_neg hrp]
        exact ⟨hr, hrt⟩
    rw [mapRuns_comp (fun r => if r = p.1 then p.2 else r) (runImage RS) hg
      line.length line (Nat.le_refl _)]
    have hfun : (fun r => runImage RS (if r = p.1 then p.2 else r)) =
        runImage (p :: RS) := by
      funext r
      rfl
    rw [hfun]

/-- Claim C4: a rule replaces at a position exactly when the characters
adjacent to the matched span are outside `[\w-]` — shown on the context
`a ++ OLD ++ b` for an all-token pattern — and concretely `Kyiv -> Kiev`
leaves `Kyivan` alone but rewrites `Kyiv.` keeping the punctuation. -/
theorem claim_C4 :
    (∀ (old new : List Char) (a b : Char),
      old ≠ [] → (∀ c ∈ old, isTokenChar c = true) → new ≠ old →
      (pySub old new (a :: (old ++ [b])) = a :: (new ++ [b]) ↔
        isTokenChar a = false ∧ isTokenChar b = false)) ∧
    applyRules [("Kyiv".data, "Kiev".data)] "Kyivan".data = "Kyivan".data ∧
    applyRules [("Kyiv".data, "Kiev".data)] "Kyiv.".data = "Kiev.".data := by
  refine ⟨?_, rfl, rfl⟩
  intro old new a b hold htok hnew
  rw [pySub_eq_mapRuns old new hold htok]
  have hgold : (fun r => if r = old then new else r) old = new := if_pos rfl
  constructor
  · intro hEq
    by_contra hcon
    have hfix : mapRuns (fun r => if r = old then new else r)
        (a :: (old ++ [b])) = a :: (old ++ [b]) := by
      by_cases ha : isTokenChar a = true
      · by_cases hb : isTokenChar b = true
        · have hall : ∀ c ∈ a :: (old ++ [b]), isTokenChar c = true := by
            intro c hc
            rcases List.mem_cons.mp hc with rfl | hc2
            · exact ha
            · rcases List.mem_append.mp hc2 with hc3 | hc3
              · exact htok c hc3
              · rw [List.mem_singleton.mp hc3]
                exact hb
          rw [mapRuns_all_tok _ _ (by simp) hall, if_neg]
          intro h
          have := congrArg List.length h
          simp at this
          omega
        · have hb' : isTokenChar b = false := Bool.eq_false_iff.mpr hb
          have hs : a :: (old ++ [b]) = (a :: old) ++ [b] := by simp
          rw [hs, mapRuns_run_append _ (a :: old) [b] (by simp)
            (by
              intro c hc
              rcases List.mem_cons.mp hc with rfl | hc2
              · exact ha
              · exact htok c hc2)
            (by
              intro x hx
              have : b = x := by simpa using hx
              rw [← this]
              exact hb'),
            mapRuns_cons_not _ _ _ hb', if_neg]
          · simp [mapRuns_nil]
          · intro h
            have := congrArg List.length h
            simp at this
      · have ha' : isTokenChar a = false := Bool.eq_false_iff.mpr ha
        have hb : isTokenChar b = true := by
          by_cases hb0 : isTokenChar b = true
          · exact hb0
          · exact absurd ⟨ha', Bool.eq_false_iff.mpr hb0⟩ hcon
        have hall : ∀ c ∈ old ++ [b], isTokenChar c = true := by
          intro c hc
          rcases List.mem_append.mp hc with hc2 | hc2
          · exact htok c hc2
          · rw [List.mem_singleton.mp hc2]
            exact hb
        rw [mapRuns_cons_not _ _ _ ha',
          mapRuns_all_tok _ _ (by simp) hall, if_neg]
        intro h
        have := congrArg List.length h
        simp at this
    rw [hfix] at hEq
    have h1 : old ++ [b] = new ++ [b] := by simpa using hEq
    have h2 : old = new := (List.append_left_inj [b]).mp h1
    exact hnew h2.symm
  · rintro ⟨ha, hb⟩
    rw [mapRuns_cons_not _ _ _ ha,
      mapRuns_run_append _ old [b] hold htok
        (by
          intro x hx
          have : b = x := by simpa using hx
          rw [← this]
          exact hb),
      mapRuns_cons_not _ _ _ hb]
    simp [mapRuns_nil]

/-- Witness for claim C4 at a concrete rule and boundary characters. -/
theorem claim_C4_witness :
    pySub "ab".data "xy".data ('.' :: ("ab".data ++ [' '])) =
      '.' :: ("xy".data ++ [' ']) :=
  ((claim_C4.1 "ab".data "xy".data '.' ' ' (by decide) (by decide)
    (by decide)).mpr (by decide))


/-- Characters of a substitution's output come from the line or from the
replacement. -/
theorem subAux_mem (old new : List Char) :
    ∀ (fuel : Nat) (l : List Char) (prev : Option Char) (x : Char),
      x ∈ subAux old new prev fuel l → x ∈ l ∨ x ∈ new := by
  intro fuel
  induction fuel with
  | zero =>
    intro l prev x hx
    cases l with
    | nil =>
      rw [subAux] at hx
      by_cases h : (old.isEmpty && lookOk prev) = true
      · rw [if_pos h] at hx
        exact Or.inr hx
      · rw [if_neg h] at hx
        simp at hx
    | cons c rest =>
      rw [subAux] at hx
      · exact Or.inl hx
      · simp
  | succ fuel ih =>
    intro l prev x hx
    cases l with
    | nil =>
      rw [subAux] at hx
      by_cases h : (old.isEmpty && lookOk prev) = true
      · rw [if_pos h] at hx
        exact Or.inr hx
      · rw [if_neg h] at hx
        simp at hx
    | cons c rest =>
      rw [subAux] at hx
      by_cases hm : matchesAt old prev (c :: rest) = true
      · rw [if_pos hm] at hx
        by_cases he : old.isEmpty = true
        · rw [if_pos he] at hx
          rcases List.mem_append.mp hx with hx1 | hx1
          · exact Or.inr hx1
          · rcases List.mem_cons.mp hx1 with rfl | hx2
            · exact Or.inl (by simp)
            · rcases ih rest (some c) x hx2 with h | h
              · exact Or.inl (by simp [h])
              · exact Or.inr h
        · rw [if_neg he] at hx
          rcases List.mem_append.mp hx with hx1 | hx1
          · exact Or.inr hx1
          · rcases ih _ old.getLast? x hx1 with h | h
            · exact Or.inl (List.mem_of_mem_drop h)
            · exact Or.inr h
      · rw [if_neg hm] at hx
        rcases List.mem_cons.mp hx with rfl | hx2
        · exact Or.inl (by simp)
        · rcases ih rest (some c) x hx2 with h | h
          · exact Or.inl (by simp [h])
          · exact Or.inr h

/-- Characters of a rewritten content line come from the line or from one of
the replacements. -/
theorem applyRules_mem :
    ∀ (R : List Rule) (line : List Char) (x : Char),
      x ∈ applyRules R line → x ∈ line ∨ ∃ p ∈ R, x ∈ p.2 := by
  intro R
  induction R with
  | nil =>
    intro line x hx
    exact Or.inl hx
  | cons p RS ih =>
    intro line x hx
    have hstep : applyRules (p :: RS) line =
        applyRules RS (pySub p.1 p.2 line) := rfl
    rw [hstep] at hx
    rcases ih (pySub p.1 p.2 line) x hx with h | ⟨q, hq, h⟩
    · rcases subAux_mem p.1 p.2 line.length line none x h with h2 | h2
      · exact Or.inl h2
      · exact Or.inr ⟨p, by simp, h2⟩
    · exact Or.inr ⟨q, by simp [hq], h⟩

/-- A `[\w-]` character is not a line boundary. -/
theorem token_not_break (c : Char) (h : isTokenChar c = true) :
    isLineBreakChar c = false := by
  by_contra hb
  rw [Bool.not_eq_false] at hb
  simp only [isLineBreakChar, Bool.or_eq_true, decide_eq_true_eq] at hb
  rcases hb with
    ((((((((h1 | h1) | h1) | h1) | h1) | h1) | h1) | h1) | h1) | h1 <;>
    (subst h1; exact absurd h (by decide))

/-- Every piece `pySplitlinesGo` produces is free of line boundaries. -/
theorem pySplitlinesGo_pieces :
    ∀ (fuel : Nat) (l acc : List Char), l.length ≤ fuel →
      (∀ c ∈ acc, isLineBreakChar c = false) →
      ∀ piece ∈ pySplitlinesGo acc fuel l, ∀ c ∈ piece,
        isLineBreakChar c = false := by
  intro fuel
  induction fuel with
  | zero =>
    intro l acc hl hacc piece hpiece c hc
    have : l = [] := List.length_eq_zero.mp (Nat.le_zero.mp hl)
    subst this
    rw [pySplitlinesGo] at hpiece
    have : piece = acc.reverse := by simpa using hpiece
    subst this
    exact hacc c (by simpa using hc)
  | succ fuel ih =>
    intro l acc hl hacc piece hpiece c hc
    cases l with
    | nil =>
      rw [pySplitlinesGo] at hpiece
      have : piece = acc.reverse := by simpa using hpiece
      subst this
      exact hacc c (by simpa using hc)
    | cons d rest =>
      have hlen : rest.length ≤ fuel := by simp at hl; omega
      rw [pySplitlinesGo] at hpiece
      by_cases h1 : (d = '\r' && rest.head? == some '\n') = true
      · rw [if_pos h1] at hpiece
        rcases List.mem_cons.mp hpiece with rfl | hp2
        · exact hacc c (by simpa using hc)
        · by_cases h2 : (rest.drop 1).isEmpty
          · rw [if_pos h2] at hp2
            simp at hp2
          · rw [if_neg h2] at hp2
            exact ih (rest.drop 1) [] (by simp [List.length_drop]; omega)
              (by simp) piece hp2 c hc
      · rw [if_neg h1] at hpiece
        by_cases hbr : isLineBreakChar d = true
        · rw [if_pos hbr] at hpiece
          rcases List.mem_cons.mp hpiece with rfl | hp2
          · exact hacc c (by simpa using hc)
          · by_cases h2 : rest.isEmpty
            · rw [if_pos h2] at hp2
              simp at hp2
            · rw [if_neg h2] at hp2
              exact ih rest [] hlen (by simp) piece hp2 c hc
        · have hbr' : isLineBreakChar d = false := Bool.eq_false_iff.mpr hbr
          rw [if_neg hbr] at hpiece
          refine ih rest (d :: acc) hlen ?_ piece hpiece c hc
          intro y hy
          rcases List.mem_cons.mp hy with rfl | hy2
          · exact hbr'
          · exact hacc y hy2

/-- Every line `pySplitlines` produces is free of line boundaries. -/
theorem pySplitlines_break_free (l : List Char) :
    ∀ piece ∈ pySplitlines l, ∀ c ∈ piece, isLineBreakChar c = false := by
  intro piece hpiece c hc
  rw [pySplitlines] at hpiece
  by_cases h : l.isEmpty
  · rw [if_pos h] at hpiece
    simp at hpiece
  · rw [if_neg h] at hpiece
    exact pySplitlinesGo_pieces l.length l [] (Nat.le_refl _) (by simp)
      piece hpiece c hc

/-- `pySplitlinesGo` ignores extra fuel. -/
theorem pySplitlinesGo_fuel :
    ∀ (fuel fuel' : Nat) (l acc : List Char), l.length ≤ fuel →
      l.length ≤ fuel' →
      pySplitlinesGo acc fuel l = pySplitlinesGo acc fuel' l := by
  intro fuel
  induction fuel with
  | zero =>
    intro fuel' l acc hl _
    have : l = [] := List.length_eq_zero.mp (Nat.le_zero.mp hl)
    subst this
    cases fuel' <;> simp [pySplitlinesGo]
  | succ fuel ih =>
    intro fuel' l acc hl hl'
    cases l with
    | nil => cases fuel' <;> simp [pySplitlinesGo]
    | cons d rest =>
      cases fuel' with
      | zero => simp at hl'
      | succ fuel'' =>
        have hl1 : rest.length ≤ fuel := by simp at hl; omega
        have hl2 : rest.length ≤ fuel'' := by simp at hl'; omega
        rw [pySplitlinesGo, pySplitlinesGo]
        by_cases h1 : (d = '\r' && rest.head? == some '\n') = true
        · rw [if_pos h1, if_pos h1]
          by_cases h2 : (rest.drop 1).isEmpty
          · rw [if_pos h2, if_pos h2]
          · rw [if_neg h2, if_neg h2,
              ih fuel'' (rest.drop 1) [] (by simp [List.length_drop]; omega)
                (by simp [List.length_drop]; omega)]
        · rw [if_neg h1, if_neg h1]
          by_cases hbr : isLineBreakChar d = true
          · rw [if_pos hbr, if_pos hbr]
            by_cases h2 : rest.isEmpty
            · rw [if_pos h2, if_pos h2]
            · rw [if_neg h2, if_neg h2, ih fuel'' rest [] hl1 hl2]
          · rw [if_neg hbr, if_neg hbr, ih fuel'' rest (d :: acc) hl1 hl2]

/-- A run map with non-vanishing images keeps a non-empty string
non-empty. -/
theorem mapRuns_ne_nil (g : List Char → List Char)
    (hg : ∀ r, r ≠ [] → (∀ c ∈ r, isTokenChar c = true) → g r ≠ [])
    (l : List Char) (hl : l ≠ []) : mapRuns g l ≠ [] := by
  cases l with
  | nil => exact absurd rfl hl
  | cons c rest =>
    by_cases hc : isTokenChar c = true
    · rw [mapRuns_cons_tok g c rest hc]
      have hrun_ne : (c :: rest).takeWhile isTokenChar ≠ [] := by
        rw [List.takeWhile_cons, if_pos hc]
        simp
      have hrun_tok :
          ∀ x ∈ (c :: rest).takeWhile isTokenChar, isTokenChar x = true :=
        fun x hx => List.mem_takeWhile_imp hx
      intro hEq
      rcases List.append_eq_nil.mp hEq with ⟨h1, _⟩
      exact hg _ hrun_ne hrun_tok h1
    · rw [mapRuns_cons_not g c rest (Bool.eq_false_iff.mpr hc)]
      simp

/-- Rewriting a line introduces no line boundary when the replacements hold
none. -/
theorem rewriteLine_break_free (R : List Rule)
    (hrep : ∀ p ∈ R, ∀ c ∈ p.2, isLineBreakChar c = false)
    (line : List Char) (hl : ∀ c ∈ line, isLineBreakChar c = false) :
    ∀ c ∈ rewriteLine R line, isLineBreakChar c = false := by
  intro c hc
  rw [rewriteLine] at hc
  by_cases hs : isStructuralLine line
  · rw [if_pos hs] at hc
    exact hl c hc
  · rw [if_neg hs] at hc
    rcases applyRules_mem R line c hc with h | ⟨p, hp, h⟩
    · exact hl c h
    · exact hrep p hp c h

/-- Rewriting never maps a non-empty line to the empty line (well-formed
rules have non-empty replacements). -/
theorem rewriteLine_ne_nil (R : List Rule) (h1 : wellFormedRules R)
    (line : List Char) (hl : line ≠ []) : rewriteLine R line ≠ [] := by
  rw [rewriteLine]
  by_cases hs : isStructuralLine line
  · rw [if_pos hs]
    exact hl
  · rw [if_neg hs, applyRules_eq_mapRuns R h1]
    exact mapRuns_ne_nil _
      (fun r hr hrt => (runImage_valid R h1 r hr hrt).1) line hl

/-- The per-line rewrite is idempotent for well-formed rules none of whose
replacements is a pattern. -/
theorem rewriteLine_idem (R : List Rule) (h1 : wellFormedRules R)
    (h2 : noReplacementIsPattern R) (line : List Char) :
    rewriteLine R (rewriteLine R line) = rewriteLine R line := by
  by_cases hs : isStructuralLine line
  · have hline : rewriteLine R line = line := by rw [rewriteLine, if_pos hs]
    rw [hline]
    exact hline
  · have hline : rewriteLine R line = applyRules R line := by
      rw [rewriteLine, if_neg hs]
    rw [hline]
    by_cases hs2 : isStructuralLine (applyRules R line)
    · rw [rewriteLine, if_pos hs2]
    · rw [rewriteLine, if_neg hs2]
      rw [applyRules_eq_mapRuns R h1, applyRules_eq_mapRuns R h1]
      rw [mapRuns_comp (runImage R) (runImage R)
        (fun r hr hrt => runImage_valid R h1 r hr hrt) line.length line
        (Nat.le_refl _)]
      exact mapRuns_congr _ _ (fun r _ _ => runImage_idem R h2 r)
        line.length line (Nat.le_refl _)

/-- `joinNL` on a list of at least two pieces. -/
theorem joinNL_cons_cons (p q : List Char) (ps : List (List Char)) :
    joinNL (p :: q :: ps) = p ++ '\n' :: joinNL (q :: ps) := rfl

/-- `joinNL` of pieces with a non-empty last piece is non-empty. -/
theorem joinNL_ne_nil :
    ∀ (ps : List (List Char)), ps ≠ [] → ps.getLast? ≠ some [] →
      joinNL ps ≠ [] := by
  intro ps hne hlast
  cases ps with
  | nil => exact absurd rfl hne
  | cons p ps' =>
    cases ps' with
    | nil =>
      intro h
      rw [show joinNL [p] = p from rfl] at h
      apply hlast
      rw [h]
      rfl
    | cons q qs =>
      rw [joinNL_cons_cons]
      simp

/-- `pySplitlinesGo` always returns at least one piece. -/
theorem pySplitlinesGo_ne_nil :
    ∀ (fuel : Nat) (l acc : List Char), pySplitlinesGo acc fuel l ≠ [] := by
  intro fuel
  induction fuel with
  | zero => intro l acc; cases l <;> simp [pySplitlinesGo]
  | succ f ih =>
    intro l acc
    cases l with
    | nil => simp [pySplitlinesGo]
    | cons c rest =>
      rw [pySplitlinesGo]
      by_cases h1 : (c = '\r' && rest.head? == some '\n') = true
      · rw [if_pos h1]
        simp
      · rw [if_neg h1]
        by_cases hbr : isLineBreakChar c = true
        · rw [if_pos hbr]
          simp
        · rw [if_neg hbr]
          exact ih rest (c :: acc)

/-- `pySplitlines` of a non-empty text is non-empty. -/
theorem pySplitlines_ne_nil (T : List Char) (h : T ≠ []) :
    pySplitlines T ≠ [] := by
  rw [pySplitlines, if_neg (by simp [List.isEmpty_iff, h])]
  exact pySplitlinesGo_ne_nil T.length T []

/-- Splitting after a boundary-free piece and an inserted newline. -/
theorem pySplitlinesGo_append_nl :
    ∀ (p : List Char), (∀ c ∈ p, isLineBreakChar c = false) →
      ∀ (acc T : List Char) (fuel : Nat), (p ++ '\n' :: T).length ≤ fuel →
        pySplitlinesGo acc fuel (p ++ '\n' :: T) =
          (acc.reverse ++ p) ::
            (if T.isEmpty then [] else pySplitlinesGo [] T.length T) := by
  intro p
  induction p with
  | nil =>
    intro _ acc T fuel hfuel
    cases fuel with
    | zero => simp at hfuel
    | succ f =>
      rw [List.nil_append, pySplitlinesGo, if_neg (by simp),
        if_pos (by decide)]
      simp only [List.append_nil]
      congr 1
      by_cases h2 : T.isEmpty
      · rw [if_pos h2, if_pos h2]
      · rw [if_neg h2, if_neg h2]
        exact pySplitlinesGo_fuel f T.length T []
          (by simp at hfuel; omega) (Nat.le_refl _)
  | cons c p' ih =>
    intro h acc T fuel hfuel
    cases fuel with
    | zero => simp at hfuel
    | succ f =>
      have hc : isLineBreakChar c = false := h c (by simp)
      have hcr : c ≠ '\r' := by
        intro e; subst e; simp [isLineBreakChar] at hc
      rw [List.cons_append, pySplitlinesGo, if_neg (by simp [hcr]),
        if_neg (by simp [hc])]
      rw [ih (fun x hx => h x (by simp [hx])) (c :: acc) T f
        (by simp at hfuel ⊢; omega)]
      have hacc : (c :: acc).reverse ++ p' = acc.reverse ++ (c :: p') := by
        simp
      rw [hacc]

/-- Splitting undoes joining when every piece is boundary-free and the last
piece is non-empty. -/
theorem pySplitlines_joinNL :
    ∀ (ps : List (List Char)), ps ≠ [] →
      (∀ piece ∈ ps, ∀ c ∈ piece, isLineBreakChar c = false) →
      ps.getLast? ≠ some [] →
      pySplitlines (joinNL ps) = ps := by
  intro ps
  induction ps with
  | nil => intro h; exact absurd rfl h
  | cons p ps' ih =>
    intro _ hbf hlast
    cases ps' with
    | nil =>
      have hp_ne : p ≠ [] := by
        intro h
        apply hlast
        rw [h]
        rfl
      rw [show joinNL [p] = p from rfl, pySplitlines,
        if_neg (by simp [List.isEmpty_iff, hp_ne]),
        pySplitlinesGo_break_free p (fun c hc => hbf p (by simp) c hc) []
          p.length (Nat.le_refl _)]
      simp
    | cons q qs =>
      have hlast' : (q :: qs).getLast? ≠ some [] := by
        rw [List.getLast?_cons_cons] at hlast
        exact hlast
      have hJ_ne : joinNL (q :: qs) ≠ [] :=
        joinNL_ne_nil _ (by simp) hlast'
      rw [joinNL_cons_cons, pySplitlines,
        if_neg (by simp [List.isEmpty_iff]),
        pySplitlinesGo_append_nl p (fun c hc => hbf p (by simp) c hc) [] _ _
          (Nat.le_refl _),
        if_neg (by simp [List.isEmpty_iff, hJ_ne])]
      have hJ : pySplitlinesGo [] (joinNL (q :: qs)).length (joinNL (q :: qs)) =
          pySplitlines (joinNL (q :: qs)) := by
        rw [pySplitlines, if_neg (by simp [List.isEmpty_iff, hJ_ne])]
      rw [hJ, ih (by simp)
        (fun piece hpiece c hc => hbf piece (by simp [hpiece]) c hc) hlast']
      simp

/-- Claim C2 (amended): the rewriter is idempotent provided every rule's
pattern and replacement are non-empty strings of word/hyphen characters, no
rule's replacement equals any rule's pattern (its own included), and the
text's final `splitlines` line is non-empty. -/
theorem claim_C2_amended :
    ∀ (R : List Rule) (T : List Char),
      wellFormedRules R → noReplacementIsPattern R →
      (pySplitlines T).getLast? ≠ some [] →
      modify_subtitles_with_vocabular_text_only_optimized
          (modify_subtitles_with_vocabular_text_only_optimized T R) R =
        modify_subtitles_with_vocabular_text_only_optimized T R := by
  intro R T h1 h2 hlast
  by_cases hR : R.isEmpty
  · have hid : ∀ X : List Char,
        modify_subtitles_with_vocabular_text_only_optimized X R = X :=
      fun X => by rw [modify_subtitles_with_vocabular_text_only_optimized,
        if_pos hR]
    rw [hid]
  · by_cases hTnil : T = []
    · subst hTnil
      have hmodnil : modify_subtitles_with_vocabular_text_only_optimized [] R
          = [] := by
        rw [modify_subtitles_with_vocabular_text_only_optimized, if_neg hR]
        rfl
      rw [hmodnil, hmodnil]
    · have hmod : modify_subtitles_with_vocabular_text_only_optimized T R =
          joinNL ((pySplitlines T).map (rewriteLine R)) := by
        rw [modify_subtitles_with_vocabular_text_only_optimized, if_neg hR]
      have hrep : ∀ p ∈ R, ∀ c ∈ p.2, isLineBreakChar c = false :=
        fun p hp c hc => token_not_break c ((h1 p hp).2.2.2 c hc)
      have hpieces_ne : pySplitlines T ≠ [] := pySplitlines_ne_nil T hTnil
      have hbf' : ∀ piece ∈ (pySplitlines T).map (rewriteLine R),
          ∀ c ∈ piece, isLineBreakChar c = false := by
        intro piece hpiece c hc
        rcases List.mem_map.mp hpiece with ⟨piece0, hp0, rfl⟩
        exact rewriteLine_break_free R hrep piece0
          (pySplitlines_break_free T piece0 hp0) c hc
      have hne' : (pySplitlines T).map (rewriteLine R) ≠ [] := by
        simp [List.map_eq_nil_iff, hpieces_ne]
      have hlast0 : ∃ plast, (pySplitlines T).getLast? = some plast := by
        cases hgl : (pySplitlines T).getLast? with
        | none => exact absurd (List.getLast?_eq_none_iff.mp hgl) hpieces_ne
        | some x => exact ⟨x, rfl⟩
      rcases hlast0 with ⟨plast, hplast⟩
      have hplast_ne : plast ≠ [] := by
        intro h
        apply hlast
        rw [hplast, h]
      have hlast' : ((pySplitlines T).map (rewriteLine R)).getLast? ≠
          some [] := by
        rw [List.getLast?_map, hplast]
        intro h
        have : rewriteLine R plast = [] := by simpa using h
        exact rewriteLine_ne_nil R h1 plast hplast_ne this
      have hround : pySplitlines (joinNL
          ((pySplitlines T).map (rewriteLine R))) =
          (pySplitlines T).map (rewriteLine R) :=
        pySplitlines_joinNL _ hne' hbf' hlast'
      have hfix : ((pySplitlines T).map (rewriteLine R)).map (rewriteLine R)
          = (pySplitlines T).map (rewriteLine R) := by
        rw [List.map_map]
        refine List.map_congr_left ?_
        intro piece0 _
        exact rewriteLine_idem R h1 h2 piece0
      calc modify_subtitles_with_vocabular_text_only_optimized
            (modify_subtitles_with_vocabular_text_only_optimized T R) R
          = joinNL ((pySplitlines (joinNL
              ((pySplitlines T).map (rewriteLine R)))).map
                (rewriteLine R)) := by
            rw [hmod, modify_subtitles_with_vocabular_text_only_optimized,
              if_neg hR]
        _ = joinNL (((pySplitlines T).map (rewriteLine R)).map
              (rewriteLine R)) := by rw [hround]
        _ = joinNL ((pySplitlines T).map (rewriteLine R)) := by rw [hfix]
        _ = modify_subtitles_with_vocabular_text_only_optimized T R := by
            rw [hmod]

/-- Witness for the amended claim C2 at a concrete rule set and text. -/
theorem claim_C2_amended_witness :
    modify_subtitles_with_vocabular_text_only_optimized
        (modify_subtitles_with_vocabular_text_only_optimized
          "1\nKyiv is beautiful.".data [("Kyiv".data, "Kiev".data)])
        [("Kyiv".data, "Kiev".data)] =
      modify_subtitles_with_vocabular_text_only_optimized
        "1\nKyiv is beautiful.".data [("Kyiv".data, "Kiev".data)] :=
  claim_C2_amended [("Kyiv".data, "Kiev".data)] "1\nKyiv is beautiful.".data
    (by decide) (by decide) (by decide)

/-- Counterexample to claim C2 as stated: with the single rule
`"a." -> "!"` — whose replacement shares nothing with any pattern — the
rewrite of `"a.a."` is `"a.!"` and rewriting again gives `"!!"`; and with
the disjoint single rule `"x" -> "y"` the text `"a\n\n"` rewrites to
`"a\n"` and then to `"a"`, so a second pass changes the text again. -/
theorem claim_C2_counterexample :
    modify_subtitles_with_vocabular_text_only_optimized
        (modify_subtitles_with_vocabular_text_only_optimized "a.a.".data
          [("a.".data, "!".data)]) [("a.".data, "!".data)] ≠
      modify_subtitles_with_vocabular_text_only_optimized "a.a.".data
        [("a.".data, "!".data)] ∧
    isSubstr "!".data "a.".data = false ∧
    modify_subtitles_with_vocabular_text_only_optimized
        (modify_subtitles_with_vocabular_text_only_optimized "a\n\n".data
          [("x".data, "y".data)]) [("x".data, "y".data)] ≠
      modify_subtitles_with_vocabular_text_only_optimized "a\n\n".data
        [("x".data, "y".data)] := by
  refine ⟨by decide, by decide, by decide⟩


/-- `numBreaksAux` ignores extra fuel. -/
theorem numBreaksAux_fuel :
    ∀ (fuel fuel' : Nat) (l : List Char), l.length ≤ fuel →
      l.length ≤ fuel' → numBreaksAux fuel l = numBreaksAux fuel' l := by
  intro fuel
  induction fuel with
  | zero =>
    intro fuel' l hl _
    have : l = [] := List.length_eq_zero.mp (Nat.le_zero.mp hl)
    subst this
    cases fuel' <;> simp [numBreaksAux]
  | succ f ih =>
    intro fuel' l hl hl'
    cases l with
    | nil => cases fuel' <;> simp [numBreaksAux]
    | cons d rest =>
      cases fuel' with
      | zero => simp at hl'
      | succ f' =>
        rw [numBreaksAux, numBreaksAux]
        by_cases h1 : (d = '\r' && rest.head? == some '\n') = true
        · rw [if_pos h1, if_pos h1,
            ih f' (rest.drop 1) (by simp [List.length_drop] at hl ⊢; omega)
              (by simp [List.length_drop] at hl' ⊢; omega)]
        · rw [if_neg h1, if_neg h1]
          by_cases hbr : isLineBreakChar d = true
          · rw [if_pos hbr, if_pos hbr,
              ih f' rest (by simp at hl; omega) (by simp at hl'; omega)]
          · rw [if_neg hbr, if_neg hbr,
              ih f' rest (by simp at hl; omega) (by simp at hl'; omega)]

/-- A boundary-free head does not change the separator count. -/
theorem numBreaks_cons_bf (c : Char) (l : List Char)
    (hc : isLineBreakChar c = false) : numBreaks (c :: l) = numBreaks l := by
  have hcr : c ≠ '\r' := by
    intro e; subst e; simp [isLineBreakChar] at hc
  show numBreaksAux (l.length + 1) (c :: l) = numBreaksAux l.length l
  rw [numBreaksAux, if_neg (by simp [hcr]), if_neg (by simp [hc])]

/-- A leading `\n` adds one separator. -/
theorem numBreaks_cons_nl (l : List Char) :
    numBreaks ('\n' :: l) = numBreaks l + 1 := by
  show numBreaksAux (l.length + 1) ('\n' :: l) = numBreaksAux l.length l + 1
  rw [numBreaksAux, if_neg (by simp), if_pos (by decide)]

/-- A boundary-free prefix does not change the separator count. -/
theorem numBreaks_append_bf (p l : List Char)
    (hp : ∀ c ∈ p, isLineBreakChar c = false) :
    numBreaks (p ++ l) = numBreaks l := by
  induction p with
  | nil => rfl
  | cons c p' ih =>
    rw [List.cons_append, numBreaks_cons_bf c _ (hp c (by simp)),
      ih (fun x hx => hp x (by simp [hx]))]

/-- A boundary-free text has no separators. -/
theorem numBreaks_bf (p : List Char)
    (hp : ∀ c ∈ p, isLineBreakChar c = false) : numBreaks p = 0 := by
  have := numBreaks_append_bf p [] hp
  simpa using this

/-- Joining `n` boundary-free pieces introduces exactly `n - 1`
separators. -/
theorem joinNL_numBreaks :
    ∀ (ps : List (List Char)), ps ≠ [] →
      (∀ piece ∈ ps, ∀ c ∈ piece, isLineBreakChar c = false) →
      numBreaks (joinNL ps) = ps.length - 1 := by
  intro ps
  induction ps with
  | nil => intro h; exact absurd rfl h
  | cons p ps' ih =>
    intro _ hbf
    cases ps' with
    | nil =>
      show numBreaks p = 0
      exact numBreaks_bf p (hbf p (by simp))
    | cons q qs =>
      rw [joinNL_cons_cons, numBreaks_append_bf p _ (hbf p (by simp)),
        numBreaks_cons_nl,
        ih (by simp) (fun piece hp c hc => hbf piece (by simp [hp]) c hc)]
      simp

/-- The number of lines produced by the splitter is one more than the
number of separators, for a text not ending in a separator. -/
theorem pySplitlinesGo_length :
    ∀ (fuel : Nat) (T acc : List Char), T.length ≤ fuel → T ≠ [] →
      isLineBreakChar (T.getLastD ' ') = false →
      (pySplitlinesGo acc fuel T).length = numBreaksAux fuel T + 1 := by
  intro fuel
  induction fuel with
  | zero =>
    intro T acc hl hne _
    exact absurd (List.length_eq_zero.mp (Nat.le_zero.mp hl)) hne
  | succ f ih =>
    intro T acc hl hne hlast
    cases T with
    | nil => exact absurd rfl hne
    | cons d rest =>
      rw [pySplitlinesGo, numBreaksAux]
      by_cases h1 : (d = '\r' && rest.head? == some '\n') = true
      · rw [if_pos h1, if_pos h1]
        have hd : d = '\r' ∧ rest.head? = some '\n' := by simpa using h1
        obtain ⟨rfl, hrh⟩ := hd
        cases rest with
        | nil => simp at hrh
        | cons e rest2 =>
          have he : e = '\n' := by simpa using hrh
          subst he
          simp only [List.drop_succ_cons, List.drop_zero]
          by_cases h2 : rest2.isEmpty
          · have : rest2 = [] := List.isEmpty_iff.mp h2
            subst this
            simp [List.getLastD, isLineBreakChar] at hlast
          · rw [if_neg h2]
            have hrest2_ne : rest2 ≠ [] := by
              intro h
              rw [h] at h2
              simp at h2
            have hlast2 : isLineBreakChar (rest2.getLastD ' ') = false := by
              cases rest2 with
              | nil => exact absurd rfl hrest2_ne
              | cons g gs => exact hlast
            rw [List.length_cons,
              ih rest2 [] (by simp at hl; omega) hrest2_ne hlast2]
      · rw [if_neg h1, if_neg h1]
        by_cases hbr : isLineBreakChar d = true
        · rw [if_pos hbr, if_pos hbr]
          by_cases h2 : rest.isEmpty
          · have : rest = [] := List.isEmpty_iff.mp h2
            subst this
            rw [show ([d] : List Char).getLastD ' ' = d from rfl] at hlast
            rw [hbr] at hlast
            simp at hlast
          · rw [if_neg h2]
            have hrest_ne : rest ≠ [] := by
              intro h
              rw [h] at h2
              simp at h2
            have hlast2 : isLineBreakChar (rest.getLastD ' ') = false := by
              cases rest with
              | nil => exact absurd rfl hrest_ne
              | cons g gs => exact hlast
            rw [List.length_cons,
              ih rest [] (by simp at hl; omega) hrest_ne hlast2]
        · rw [if_neg hbr, if_neg hbr]
          have hbr2 : isLineBreakChar d = false := Bool.eq_false_iff.mpr hbr
          cases rest with
          | nil =>
            cases f <;> simp [pySplitlinesGo, numBreaksAux, hbr2]
          | cons g gs =>
            have hlast2 : isLineBreakChar ((g :: gs).getLastD ' ') = false :=
              hlast
            rw [ih (g :: gs) (d :: acc) (by simp at hl ⊢; omega) (by simp)
              hlast2]

/-- Line count of the splitter on texts not ending in a separator. -/
theorem pySplitlines_length (T : List Char) (hne : T ≠ [])
    (hlast : isLineBreakChar (T.getLastD ' ') = false) :
    (pySplitlines T).length = numBreaks T + 1 := by
  rw [pySplitlines, if_neg (by simp [List.isEmpty_iff, hne]), numBreaks]
  exact pySplitlinesGo_length T.length T [] (Nat.le_refl _) hne hlast

/-- Claim C3 (amended): for a text that does not end in a line separator
and a non-empty rule list whose replacements hold no separator, the rewrite
preserves the separator count (interior empty lines survive as pieces of
the split, but a trailing separator would be dropped by `splitlines`). -/
theorem claim_C3_amended :
    ∀ (T : List Char) (R : List Rule),
      R ≠ [] →
      (∀ p ∈ R, ∀ c ∈ p.2, isLineBreakChar c = false) →
      T ≠ [] → isLineBreakChar (T.getLastD ' ') = false →
      numBreaks (modify_subtitles_with_vocabular_text_only_optimized T R) =
        numBreaks T := by
  intro T R hR hrep hT hlast
  have hR' : ¬ R.isEmpty := by simp [List.isEmpty_iff, hR]
  rw [modify_subtitles_with_vocabular_text_only_optimized, if_neg hR']
  have hpieces_ne : pySplitlines T ≠ [] := pySplitlines_ne_nil T hT
  have hbf' : ∀ piece ∈ (pySplitlines T).map (rewriteLine R),
      ∀ c ∈ piece, isLineBreakChar c = false := by
    intro piece hpiece c hc
    rcases List.mem_map.mp hpiece with ⟨piece0, hp0, rfl⟩
    exact rewriteLine_break_free R hrep piece0
      (pySplitlines_break_free T piece0 hp0) c hc
  have hne' : (pySplitlines T).map (rewriteLine R) ≠ [] := by
    simp [List.map_eq_nil_iff, hpieces_ne]
  rw [joinNL_numBreaks _ hne' hbf', List.length_map,
    pySplitlines_length T hT hlast]
  simp

/-- Witness for the amended claim C3 at a concrete rule set and text. -/
theorem claim_C3_amended_witness :
    numBreaks (modify_subtitles_with_vocabular_text_only_optimized
        "ab\ncd".data [("ab".data, "xy".data)]) = numBreaks "ab\ncd".data :=
  claim_C3_amended "ab\ncd".data [("ab".data, "xy".data)] (by decide)
    (by decide) (by decide) (by decide)

/-- Counterexample to claim C3 as stated: the text `"x\n"` has one line
separator but its rewrite under the rule `"a" -> "b"` is `"x"`, with none
(`splitlines` drops the trailing separator); and a replacement holding a
newline raises the count: `"x"` rewrites to `"a\nb"` under
`"x" -> "a\nb"`. -/
theorem claim_C3_counterexample :
    numBreaks (modify_subtitles_with_vocabular_text_only_optimized "x\n".data
        [("a".data, "b".data)]) = 0 ∧
    numBreaks "x\n".data = 1 ∧
    numBreaks (modify_subtitles_with_vocabular_text_only_optimized "x".data
        [("x".data, "a\nb".data)]) = 1 ∧
    numBreaks "x".data = 0 := by
  refine ⟨by decide, by decide, by decide, by decide⟩


/-- With no subtitle number stored the emission guard is false. -/
theorem emitReady_of_number_none (st : FBState) (h : st.number = none) :
    emitReady st = false := by
  simp [emitReady, h, truthyNum]

/-- With no accumulated text the emission guard is false. -/
theorem emitReady_of_texts_nil (st : FBState) (h : st.texts = []) :
    emitReady st = false := by
  simp [emitReady, h]

/-- `pySplitSepFuel` always returns at least one part. -/
theorem pySplitSepFuel_ne_nil :
    ∀ (sep : List Char) (fuel : Nat) (l : List Char),
      pySplitSepFuel sep fuel l ≠ [] := by
  intro sep fuel l
  cases fuel with
  | zero => simp [pySplitSepFuel]
  | succ f =>
    cases h : splitOnce sep l with
    | none => simp [pySplitSepFuel, h]
    | some ab =>
      obtain ⟨a, b⟩ := ab
      simp [pySplitSepFuel, h]

/-- A text containing the (non-empty) separator splits at it. -/
theorem splitOnce_append (sep : List Char) (hsep : sep ≠ []) :
    ∀ (u v : List Char), ∃ a b, splitOnce sep (u ++ (sep ++ v)) = some (a, b) := by
  intro u
  induction u with
  | nil =>
    intro v
    cases sep with
    | nil => exact absurd rfl hsep
    | cons s0 s' =>
      rw [List.nil_append, List.cons_append, splitOnce,
        if_pos (show isPfx (s0 :: s') (s0 :: (s' ++ v)) = true from
          isPfx_append_self (s0 :: s') v)]
      exact ⟨[], ((s0 :: s') ++ v).drop (s0 :: s').length, rfl⟩
  | cons c u' ih =>
    intro v
    rw [List.cons_append, splitOnce]
    by_cases hp : isPfx sep (c :: (u' ++ (sep ++ v))) = true
    · rw [if_pos hp]
      exact ⟨[], (c :: (u' ++ (sep ++ v))).drop sep.length, rfl⟩
    · rw [if_neg hp]
      obtain ⟨a, b, hab⟩ := ih v
      rw [hab]
      exact ⟨c :: a, b, rfl⟩

/-- On a line matched by the timecode regular expression, Python's
`line.split(' --> ')` has at least the two parts the code reads. -/
theorem timecodeMatch_split (l : List Char) (htc : timecodeMatch l = true) :
    ∃ t0 t1 ts, pySplitSep " --> ".data l = t0 :: t1 :: ts := by
  rw [timecodeMatch] at htc
  have hb : ((l.drop 12).take 5 == " --> ".data) = true :=
    (Bool.and_eq_true_iff.mp (Bool.and_eq_true_iff.mp htc).1).2
  have h5 : (l.drop 12).take 5 = " --> ".data := by simpa using hb
  have h2 : l.drop 12 = " --> ".data ++ (l.drop 12).drop 5 := by
    conv_lhs => rw [← List.take_append_drop 5 (l.drop 12)]
    rw [h5]
  have hdecomp : l = l.take 12 ++ (" --> ".data ++ (l.drop 12).drop 5) := by
    conv_lhs => rw [← List.take_append_drop 12 l, h2]
  obtain ⟨a, b, hab⟩ := splitOnce_append " --> ".data (by decide)
    (l.take 12) ((l.drop 12).drop 5)
  rw [← hdecomp] at hab
  have hlne : l ≠ [] := by
    intro h
    rw [h] at h5
    simp at h5
  obtain ⟨f, hf⟩ : ∃ f, l.length = f + 1 := by
    cases l with
    | nil => exact absurd rfl hlne
    | cons c r => exact ⟨r.length, rfl⟩
  have hstep : pySplitSep " --> ".data l =
      a :: pySplitSepFuel " --> ".data f b := by
    rw [pySplitSep, hf, pySplitSepFuel, hab]
  cases hne : pySplitSepFuel " --> ".data f b with
  | nil => exact absurd hne (pySplitSepFuel_ne_nil _ _ _)
  | cons t1 ts =>
    refine ⟨a, t1, ts, ?_⟩
    rw [hstep, hne]

/-- Claim C7: a block missing a required field — its timecode line (which
supplies both start and end), its index line, or any accumulated text —
never emits an entry: at the closing blank line the emission guard is false,
the state is reset, and parsing continues as if the block had not been
there.  Three concrete inputs show a block without a timecode, one without
an index, and one without text each being dropped while the following
well-formed block is still emitted. -/
theorem claim_C7 :
    (∀ (st : FBState) (lines rest : List (List Char)),
      (∀ l ∈ lines, pyStrip l ≠ []) →
      ((st.number = none ∧ ∀ l ∈ lines, pyIsDigit (pyStrip l) = false) ∨
        (st.startT = none ∧ ∀ l ∈ lines, timecodeMatch (pyStrip l) = false) ∨
        (st.texts = [] ∧ ∀ l ∈ lines,
          pyIsDigit (pyStrip l) = true ∨ timecodeMatch (pyStrip l) = true)) →
      fbAux st (lines ++ [] :: rest) = fbAux initFB rest) ∧
    fallback_parse_srt
        ("1\nHello\n\n2\n00:00:01,000 --> 00:00:02,000\nWorld\n").data =
      .ok [⟨2, 1000000, 2000000, "World".data⟩] ∧
    fallback_parse_srt
        ("00:00:01,000 --> 00:00:02,500\nHello\n\n" ++
          "2\n00:00:01,000 --> 00:00:02,000\nWorld\n").data =
      .ok [⟨2, 1000000, 2000000, "World".data⟩] ∧
    fallback_parse_srt
        ("3\n00:00:05,000 --> 00:00:06,000\n\n" ++
          "2\n00:00:01,000 --> 00:00:02,000\nWorld\n").data =
      .ok [⟨2, 1000000, 2000000, "World".data⟩] := by
  refine ⟨?_, rfl, rfl, rfl⟩
  intro st lines
  induction lines generalizing st with
  | nil =>
    intro rest _ hcase
    rw [List.nil_append, fbAux]
    have hstrip : pyStrip ([] : List Char) = [] := rfl
    rw [hstrip]
    rw [if_neg (by simp [pyIsDigit]),
      if_neg (by simp [timecodeMatch, isStampAt]), if_pos (by simp)]
    rcases hcase with ⟨hnum, _⟩ | ⟨hstart, _⟩ | ⟨htexts, _⟩
    · rw [if_neg (by simp [emitReady_of_number_none st hnum])]
    · rw [if_neg (by simp [emitReady_of_startT_none st hstart])]
    · rw [if_neg (by simp [emitReady_of_texts_nil st htexts])]
  | cons line ls ih =>
    intro rest hblank hcase
    have hline_ne : pyStrip line ≠ [] := hblank line (by simp)
    have hblank' : ∀ l ∈ ls, pyStrip l ≠ [] :=
      fun l hl => hblank l (by simp [hl])
    rw [List.cons_append, fbAux]
    rcases hcase with ⟨hnum, hdig⟩ | ⟨hstart, htc⟩ | ⟨htexts, hdt⟩
    · have hd : pyIsDigit (pyStrip line) = false := hdig line (by simp)
      rw [if_neg (by simp [hd])]
      by_cases ht : timecodeMatch (pyStrip line) = true
      · rw [if_pos ht]
        obtain ⟨t0, t1, ts, hsp⟩ := timecodeMatch_split _ ht
        rw [hsp]
        exact ih _ rest hblank'
          (Or.inl ⟨hnum, fun l hl => hdig l (by simp [hl])⟩)
      · rw [if_neg ht, if_neg (by simp [List.isEmpty_iff, hline_ne])]
        exact ih _ rest hblank'
          (Or.inl ⟨hnum, fun l hl => hdig l (by simp [hl])⟩)
    · have ht : timecodeMatch (pyStrip line) = false := htc line (by simp)
      by_cases hd : pyIsDigit (pyStrip line) = true
      · rw [if_pos hd]
        exact ih _ rest hblank'
          (Or.inr (Or.inl ⟨hstart, fun l hl => htc l (by simp [hl])⟩))
      · rw [if_neg hd, if_neg (by simp [ht]),
          if_neg (by simp [List.isEmpty_iff, hline_ne])]
        exact ih _ rest hblank'
          (Or.inr (Or.inl ⟨hstart, fun l hl => htc l (by simp [hl])⟩))
    · by_cases hd : pyIsDigit (pyStrip line) = true
      · rw [if_pos hd]
        exact ih _ rest hblank'
          (Or.inr (Or.inr ⟨htexts, fun l hl => hdt l (by simp [hl])⟩))
      · have ht : timecodeMatch (pyStrip line) = true := by
          rcases hdt line (by simp) with h | h
          · exact absurd h hd
          · exact h
        rw [if_neg hd, if_pos ht]
        obtain ⟨t0, t1, ts, hsp⟩ := timecodeMatch_split _ ht
        rw [hsp]
        exact ih _ rest hblank'
          (Or.inr (Or.inr ⟨htexts, fun l hl => hdt l (by simp [hl])⟩))

/-- Witness for claim C7: the general part applied at a concrete dropped
block (an index line and a text line, no timecode) followed by a tail. -/
theorem claim_C7_witness :
    fbAux initFB (["1".data, "Hello".data] ++ [] :: [['x']]) =
      fbAux initFB [['x']] :=
  claim_C7.1 initFB ["1".data, "Hello".data] [['x']] (by decide)
    (Or.inr (Or.inl ⟨rfl, by decide⟩))


end SrtToCsv
